import Mathlib

/-!
Qubit-register permutation engine (`src/qureg_permute.cpp`).

A shallow embedding of the methods of `QubitRegister<Type>` defined in
`qureg_permute.cpp` (`Permute`, `EmulateSwap`, `PermuteLocal`, `PermuteGlobal`,
`PermuteByLocalGlobalExchangeOfSinglePair`) together with the parts of the
`Permutation` class and of the MPI environment they call.

Conventions of the embedding

* `std::vector<std::size_t>` and `std::vector<Type>` are `List`s; `v[i]` is
  `v.getD i 0` and `v[i] = x` is `v.set i x`.  An out-of-range read or write is
  undefined behaviour in C++; the embedding gives it the value `0` / no effect,
  and every theorem that depends on an access proves or assumes it in range.
* `assert(c)` aborts the process.  A method returns an `Outcome`: `done s` when
  it ran to completion with final register `s`, `abort s` when an assertion
  failed, `s` being the register as it was at that moment, and `undefined` when
  it reached the one undefined operation the embedding keeps track of, the
  all-gather of lines 39-43 on buffers that are too small for its datatype.
* `#pragma omp parallel for` loops are run in index order.
* Machine integers are `Nat`; no arithmetic in this file can overflow for
  `num_qubits < 64`, except `M = num_qubits - ilog2(nprocs)`, which is a
  `std::size_t` and wraps in the source when `ilog2(nprocs) > num_qubits`, where
  `localBits` gives `0`.  Every theorem whose conclusion depends on the value of
  `M` assumes `ilog2(nprocs) ≤ num_qubits`, either as such or as `nprocs = 2^k`
  with `k ≤ num_qubits`; the others are equalities between two calls on the same
  `M`, are conditional on completion, or concern aborts that precede the use of
  `M`.
-/

namespace QuregPermute

/-! ## Collaborators that are declared outside `qureg_permute.cpp` -/

/-- Result of running a method that may hit a failing `assert`, or run into undefined
behaviour, after which nothing is known about the register. -/
inductive Outcome (σ : Type) where
  | done (s : σ) : Outcome σ
  | abort (s : σ) : Outcome σ
  | undefined : Outcome σ
deriving DecidableEq

/-- Whether the method ran to completion. -/
def Outcome.succeeded {σ : Type} : Outcome σ → Bool
  | .done _ => true
  | .abort _ => false
  | .undefined => false

/-- The register carried by an outcome (final, or as it was when aborting); none after
undefined behaviour. -/
def Outcome.reg {σ : Type} : Outcome σ → Option σ
  | .done s => some s
  | .abort s => some s
  | .undefined => none

/-- Modelled from the spec: the `Permutation` class of `permutation.hpp`, which is not part of
the sources at hand.  `map` is the forward array (logical qubit to physical position,
"toPhysical"), `imap` the inverse array (physical position to logical qubit, "toLogical"). -/
structure Permutation where
  map : List Nat
  imap : List Nat
deriving DecidableEq

/-- Modelled from the spec: the array `inv` with `inv[m[i]] = i` for every index `i` of `m`,
the mutual inverse of a bijective `m` (Permutation Map, invariant I1). -/
def invert (m : List Nat) : List Nat :=
  (List.range m.length).foldl (fun inv i => inv.set (m.getD i 0) i) (List.replicate m.length 0)

/-- Modelled from the spec: the constructor `Permutation(m, style_of_map)`.  Style "direct" reads
`m[logical] = physicalPosition`, style "inverse" reads `m[physicalPosition] = logical`; any
other style is a fatal input error (`none`). -/
def Permutation.ofMap (m : List Nat) (style_of_map : String) : Option Permutation :=
  if style_of_map = "direct" then some { map := m, imap := invert m }
  else if style_of_map = "inverse" then some { map := invert m, imap := m }
  else none

/-- Modelled from the spec: `Permutation::operator[]`, the physical position of logical
qubit `j` ("looked up by the caller via toPhysical"). -/
def Permutation.get (p : Permutation) (j : Nat) : Nat := p.map.getD j 0

/-- Modelled from the spec: `Permutation::data2program_`, which reads a data (physical) index as
the assignment of the logical qubits: bit `q` of the result is the bit of `v` at the physical
position of logical qubit `q`. -/
def Permutation.data2program_ (p : Permutation) (v : Nat) : Nat :=
  (List.range p.map.length).foldl
    (fun acc q => acc ||| (((v >>> p.map.getD q 0) &&& 1) <<< q)) 0

/-- Modelled from the spec: `Permutation::program2data_`, which lays an assignment of the logical
qubits out as a data (physical) index: the bit at the physical position of logical qubit `q`
is bit `q` of `v`. -/
def Permutation.program2data_ (p : Permutation) (v : Nat) : Nat :=
  (List.range p.map.length).foldl
    (fun acc q => acc ||| (((v >>> q) &&& 1) <<< p.map.getD q 0)) 0

/-- Modelled from the spec: `Permutation::ExchangeTwoElements` (the Swap-Metadata Engine):
given two physical positions, exchanges the two corresponding entries of the inverse array
and of the forward array. -/
def Permutation.ExchangeTwoElements (p : Permutation) (position_1 position_2 : Nat) :
    Permutation :=
  let qubit_1 := p.imap.getD position_1 0
  let qubit_2 := p.imap.getD position_2 0
  { map := (p.map.set qubit_1 position_2).set qubit_2 position_1
    imap := (p.imap.set position_1 qubit_2).set position_2 qubit_1 }

/-- Auxiliary recursion of `ilog2`, on a fuel argument. -/
def ilog2Aux : Nat → Nat → Nat
  | 0, _ => 0
  | fuel + 1, n => if 2 ≤ n then ilog2Aux fuel (n / 2) + 1 else 0

/-- Modelled from the spec: `qhipster::ilog2`, the base-2 logarithm (rounded down) of the
number of partitions, so that `M = n - log2(P)`. -/
def ilog2 (n : Nat) : Nat := ilog2Aux n n

/-- The element types at which the class is instantiated (lines 225-226):
`template class QubitRegister<ComplexSP>` and `template class QubitRegister<ComplexDP>`,
single- and double-precision complex numbers. -/
inductive ElementType where
  | ComplexSP : ElementType
  | ComplexDP : ElementType
deriving DecidableEq

/-- Modelled from the spec: the size in bytes of one element, `sizeof(Type)`, for a single- and
for a double-precision complex amplitude (two floats, two doubles); the aliases `ComplexSP`
and `ComplexDP` are declared outside `qureg_permute.cpp`. -/
def ElementType.sizeof : ElementType → Nat
  | .ComplexSP => 8
  | .ComplexDP => 16

/-- The extent in bytes of the MPI datatype `MPI_DOUBLE_COMPLEX` (a pair of doubles) that
lines 39-43 pass to the all-gather. -/
def sizeof_MPI_DOUBLE_COMPLEX : Nat := 16

/-- What is fixed outside the methods for one process: `GetStateSize()` and
`GetStateRank()` of `qhipster::mpi::Environment`, whether the build defines
`INTELQS_HAS_MPI`, and the element type `Type` at which `QubitRegister<Type>` is
instantiated (the amplitudes themselves are kept abstract). -/
structure Environment where
  nprocs : Nat
  myrank : Nat
  has_mpi : Bool
  elem_type : ElementType
deriving DecidableEq

/-- The members of `QubitRegister<Type>` the permutation methods use: the number of qubits,
the current permutation (`*permutation`) and this process's shard (`state`). -/
structure QubitRegister (α : Type) where
  num_qubits : Nat
  permutation : Permutation
  state : List α
deriving DecidableEq

/-- Modelled from the spec: `LocalSize()`, the number of elements of the shard. -/
def QubitRegister.LocalSize {α : Type} (reg : QubitRegister α) : Nat := reg.state.length

/-- Modelled from the spec: `GlobalSize()`, total elements = shardSize × P. -/
def QubitRegister.GlobalSize {α : Type} (env : Environment) (reg : QubitRegister α) : Nat :=
  reg.LocalSize * env.nprocs

/-- The call `MPI_Allgather(&state[0], count, MPI_DOUBLE_COMPLEX, &glb_state[0], count,
MPI_DOUBLE_COMPLEX, comm)` of lines 39-43 (the `BIGMPI` variant passes the same datatype).
The datatype is `MPI_DOUBLE_COMPLEX` whatever `Type` is, so the call sends
`count * sizeof_MPI_DOUBLE_COMPLEX` bytes out of a buffer of `count * sizeof(Type)` bytes,
and receives as many from every process.  When the buffers are large enough (`ComplexDP`)
every process receives the shards of all processes, concatenated in rank order, as the spec
describes the all-gather; when they are not (`ComplexSP` with `count > 0`) the call reads past
the end of `state` and writes past the end of `glb_state`: undefined behaviour, `none`. -/
def MPI_Allgather {α : Type} (elem_type : ElementType) (count : Nat)
    (shards : List (List α)) : Option (List α) :=
  if count * sizeof_MPI_DOUBLE_COMPLEX ≤ count * elem_type.sizeof then some shards.flatten
  else none

/-! ## `qureg_permute.cpp` -/

/-- Lines 117-124 (and 163-170): "Determine the inverse map."  `none` is the failing
`assert(0)` on a style that is neither "direct" nor "inverse". -/
def new_inverse_map (new_map : List Nat) (style_of_map : String) : Option (List Nat) :=
  if style_of_map = "direct" then
    some ((List.range new_map.length).foldl
      (fun inv qubit => inv.set (new_map.getD qubit 0) qubit) new_map)
  else if style_of_map ≠ "inverse" then none
  else some new_map

/-- The number of local positions, `M = num_qubits - ilog2(GetStateSize())` (lines 129, 175,
204).  In the source `M` is a `std::size_t` and wraps around when `ilog2(P) > num_qubits`; the
subtraction here is the source's exactly when `ilog2(P) ≤ num_qubits`. -/
def localBits {α : Type} (env : Environment) (reg : QubitRegister α) : Nat :=
  reg.num_qubits - ilog2 env.nprocs

/-- Lines 130-132: the bit vector `local`, marking the qubits at the new local positions. -/
def localMarks (new_inv : List Nat) (M : Nat) : List Bool :=
  (List.range M).foldl (fun l pos => l.set (new_inv.getD pos 0) true)
    (List.replicate new_inv.length false)

/-- Lines 130-136: the three validation loops of `PermuteLocal`; `true` when no assertion
fails. -/
def localGuard (old_inv new_inv : List Nat) (M num_qubits : Nat) : Bool :=
  (List.range M).all (fun pos => (localMarks new_inv M).getD (old_inv.getD pos 0) false) &&
  (List.range' M (num_qubits - M)).all (fun pos => old_inv.getD pos 0 == new_inv.getD pos 0)

/-- The composed index map `i ↦ permutation_new.program2data_(permutation_old.data2program_(i))`
of lines 50 and 149. -/
def remap (permutation_old permutation_new : Permutation) (i : Nat) : Nat :=
  permutation_new.program2data_ (permutation_old.data2program_ i)

/-- Lines 141-151: copy the shard into `state_old` (created as `LocalSize()` zeros), then write
`state[to] = state_old[i]` for every `i`. -/
def remapLocal {α : Type} [Zero α] (permutation_old permutation_new : Permutation)
    (state : List α) : List α :=
  let state_old := (List.range state.length).foldl
    (fun so i => so.set i (state.getD i 0)) (List.replicate state.length 0)
  (List.range state.length).foldl
    (fun st i => st.set (remap permutation_old permutation_new i) (state_old.getD i 0)) state

/-- `QubitRegister<Type>::PermuteLocal` (lines 114-156). -/
def PermuteLocal {α : Type} [Zero α] (env : Environment) (reg : QubitRegister α)
    (new_map : List Nat) (style_of_map : String) : Outcome (QubitRegister α) :=
  if new_map.length ≠ reg.num_qubits then .abort reg
  else match new_inverse_map new_map style_of_map with
    | none => .abort reg
    | some new_inv =>
      if !localGuard reg.permutation.imap new_inv (localBits env reg) reg.num_qubits then
        .abort reg
      else match Permutation.ofMap new_inv "inverse" with
        | none => .abort reg
        | some permutation_new =>
          .done { reg with
            state := remapLocal reg.permutation permutation_new reg.state
            permutation := permutation_new }

/-- Lines 176-178: the bit vector `global`, marking the qubits at the new global positions. -/
def globalMarks (new_inv : List Nat) (M num_qubits : Nat) : List Bool :=
  (List.range' M (num_qubits - M)).foldl (fun g pos => g.set (new_inv.getD pos 0) true)
    (List.replicate new_inv.length false)

/-- Lines 176-187: the four validation loops of `PermuteGlobal`; `true` when no assertion
fails. -/
def globalGuard (old_inv new_inv : List Nat) (M num_qubits : Nat) : Bool :=
  (List.range' M (num_qubits - M)).all
    (fun pos => (globalMarks new_inv M num_qubits).getD (old_inv.getD pos 0) false) &&
  (List.range M).all (fun pos => old_inv.getD pos 0 == new_inv.getD pos 0) &&
  (List.range' M (num_qubits - M)).all (fun pos => old_inv.getD pos 0 == new_inv.getD pos 0)

/-- `QubitRegister<Type>::PermuteGlobal` (lines 160-188): validation only. -/
def PermuteGlobal {α : Type} (env : Environment) (reg : QubitRegister α)
    (new_map : List Nat) (style_of_map : String) : Outcome (QubitRegister α) :=
  if new_map.length ≠ reg.num_qubits then .abort reg
  else match new_inverse_map new_map style_of_map with
    | none => .abort reg
    | some new_inv =>
      if !globalGuard reg.permutation.imap new_inv (localBits env reg) reg.num_qubits then
        .abort reg
      else .done reg

/-- One iteration of the scan of lines 48-58, on the shard being rewritten. -/
def scanStep {α : Type} [Zero α] (permutation_old permutation_new : Permutation)
    (LocalSize myrank : Nat) (glb_state : List α) (acc : Outcome (List α)) (i : Nat) :
    Outcome (List α) :=
  match acc with
  | .undefined => .undefined
  | .abort st => .abort st
  | .done st =>
    let to_glbind := remap permutation_old permutation_new i
    let to_rank := to_glbind / LocalSize
    if to_rank = myrank then
      let to_lclind := to_glbind - to_rank * LocalSize
      if to_lclind < LocalSize then .done (st.set to_lclind (glb_state.getD i 0))
      else .abort st
    else .done st

/-- Lines 46-58: "Update the original state from its record in 'glb_state'." -/
def scanGlobal {α : Type} [Zero α] (permutation_old permutation_new : Permutation)
    (LocalSize myrank GlobalSize : Nat) (glb_state state : List α) : Outcome (List α) :=
  (List.range GlobalSize).foldl
    (scanStep permutation_old permutation_new LocalSize myrank glb_state) (.done state)

/-- `QubitRegister<Type>::Permute` (lines 8-92), as run by the process of rank `env.myrank`.
`shards` are the shards of all processes of the state communicator in rank order, which the
all-gather of lines 39-43 reads. -/
def Permute {α : Type} [Zero α] (env : Environment) (shards : List (List α))
    (reg : QubitRegister α) (new_map : List Nat) (style_of_map : String) :
    Outcome (QubitRegister α) :=
  if reg.num_qubits ≠ new_map.length then .abort reg
  else if env.nprocs = 1 then PermuteLocal env reg new_map style_of_map
  else match Permutation.ofMap new_map style_of_map with
    | none => .abort reg
    | some permutation_new =>
      if !env.has_mpi then .abort reg
      else
        match MPI_Allgather env.elem_type reg.LocalSize shards with
        | none => .undefined
        | some glb_state =>
          match scanGlobal reg.permutation permutation_new reg.LocalSize env.myrank
              (reg.GlobalSize env) glb_state reg.state with
          | .undefined => .undefined
          | .abort st => .abort { reg with state := st }
          | .done st => .done { reg with state := st, permutation := permutation_new }

/-- `QubitRegister<Type>::EmulateSwap` (lines 96-110). -/
def EmulateSwap {α : Type} (reg : QubitRegister α) (qubit_1 qubit_2 : Nat) :
    Outcome (QubitRegister α) :=
  if ¬ qubit_1 < reg.num_qubits then .abort reg
  else if ¬ qubit_2 < reg.num_qubits then .abort reg
  else
    let position_1 := reg.permutation.get qubit_1
    let position_2 := reg.permutation.get qubit_2
    if ¬ position_1 < reg.num_qubits then .abort reg
    else if ¬ position_2 < reg.num_qubits then .abort reg
    else .done { reg with
      permutation := reg.permutation.ExchangeTwoElements position_1 position_2 }

/-- Lines 198-201: the logical qubits whose position differs between the candidate and the
current permutation, in increasing order. -/
def exchanged_qubits (new_permutation current : Permutation) (num_qubits : Nat) : List Nat :=
  (List.range num_qubits).filter (fun j => new_permutation.get j != current.get j)

/-- `QubitRegister<Type>::PermuteByLocalGlobalExchangeOfSinglePair` (lines 192-221).
`ApplySwap` is the swap-exchange collaborator, defined elsewhere in the class. -/
def PermuteByLocalGlobalExchangeOfSinglePair {α : Type} (env : Environment)
    (ApplySwap : QubitRegister α → Nat → Nat → QubitRegister α)
    (reg : QubitRegister α) (new_map : List Nat) (style_of_map : String) :
    Outcome (QubitRegister α) :=
  match Permutation.ofMap new_map style_of_map with
  | none => .abort reg
  | some new_permutation =>
    let exchanged := exchanged_qubits new_permutation reg.permutation reg.num_qubits
    if exchanged.length ≠ 2 then .abort reg
    else
      let M := localBits env reg
      let e0 := exchanged.getD 0 0
      let e1 := exchanged.getD 1 0
      if e0 < M then
        if ¬ e1 ≥ M then .abort reg
        else EmulateSwap (ApplySwap reg e0 e1) e0 e1
      else
        if ¬ e1 < M then .abort reg
        else EmulateSwap (ApplySwap reg e1 e0) e1 e0

/-- The environment of the process of rank `r` among `P` processes of the same build and
the same instantiation. -/
def rankEnv (P r : Nat) (has_mpi : Bool) (elem_type : ElementType) : Environment :=
  { nprocs := P, myrank := r, has_mpi := has_mpi, elem_type := elem_type }

/-- The register carried by an outcome, and an empty register after undefined behaviour. -/
def Outcome.regD {α : Type} (o : Outcome (QubitRegister α)) : QubitRegister α :=
  o.reg.getD ⟨0, ⟨[], []⟩, []⟩

/-- Every process of the state communicator calls `Permute` with the same candidate: the list
of outcomes, one per rank.  `regs` are the registers of the processes in rank order, so
`GetStateSize()` is `regs.length` and the process at index `r` has `GetStateRank() = r`; all
processes run the same build (`has_mpi`) and the same instantiation (`elem_type`). -/
def PermuteAll {α : Type} [Zero α] (has_mpi : Bool) (elem_type : ElementType)
    (regs : List (QubitRegister α)) (new_map : List Nat) (style_of_map : String) :
    List (Outcome (QubitRegister α)) :=
  regs.mapIdx (fun r reg =>
    Permute (rankEnv regs.length r has_mpi elem_type) (regs.map (fun g => g.state)) reg
      new_map style_of_map)

/-- The gathered state `G`: the shards of all ranks, concatenated in rank order. -/
def gathered {α : Type} (regs : List (QubitRegister α)) : List α :=
  (regs.map (fun g => g.state)).flatten

/-! ## Predicates used in the statements -/

/-- Invariant I1 on `n` qubits: both arrays have length `n`, every forward entry is a position
below `n`, and `toLogical[toPhysical[i]] = i` for every logical qubit `i`. -/
def Permutation.I1 (p : Permutation) (n : Nat) : Prop :=
  p.map.length = n ∧ p.imap.length = n ∧
    ∀ i, i < n → p.map.getD i 0 < n ∧ p.imap.getD (p.map.getD i 0) 0 = i

/-- A candidate mapping: an array of length `n` of distinct integers in `[0, n)`. -/
def IsCandidate (n : Nat) (m : List Nat) : Prop :=
  m.length = n ∧ (∀ x ∈ m, x < n) ∧ m.Nodup

instance (n : Nat) (m : List Nat) : Decidable (IsCandidate n m) :=
  inferInstanceAs (Decidable (m.length = n ∧ (∀ x ∈ m, x < n) ∧ m.Nodup))

instance (p : Permutation) (n : Nat) : Decidable (p.I1 n) :=
  inferInstanceAs (Decidable (p.map.length = n ∧ p.imap.length = n ∧
    ∀ i, i < n → p.map.getD i 0 < n ∧ p.imap.getD (p.map.getD i 0) 0 = i))

/-- The array `l` has length `n` and, read as a function on `[0, n)`, maps into `[0, n)`
injectively. -/
def IsBij (n : Nat) (l : List Nat) : Prop :=
  l.length = n ∧ (∀ i, i < n → l.getD i 0 < n) ∧
    ∀ i, i < n → ∀ j, j < n → l.getD i 0 = l.getD j 0 → i = j

/-- The loop `for i in [0, k): st[dest i] = val i`, the shape of every array-filling loop of
the file. -/
def scatter {β : Type} (k : Nat) (dest : Nat → Nat) (val : Nat → β) (init : List β) : List β :=
  (List.range k).foldl (fun st i => st.set (dest i) (val i)) init

/-- Two ranks on `n = 2` qubits: identity permutation, shards `[10, 11]`
and `[12, 13]`. -/
def twoRanks : List (QubitRegister Nat) :=
  [⟨2, ⟨[0, 1], [0, 1]⟩, [10, 11]⟩, ⟨2, ⟨[0, 1], [0, 1]⟩, [12, 13]⟩]

/-- Rank 0 of two processes, MPI build, double precision. -/
def rank0of2 : Environment := { nprocs := 2, myrank := 0, has_mpi := true, elem_type := .ComplexDP }

/-- The register of rank 0: `n = 2`, identity permutation, shard `[10, 11]`. -/
def reg2 : QubitRegister Nat := ⟨2, ⟨[0, 1], [0, 1]⟩, [10, 11]⟩

/-- A stand-in for the swap-exchange collaborator: it rewrites the shard (here, reverses it)
and touches nothing else. -/
def reverseShard (r : QubitRegister Nat) (_ _ : Nat) : QubitRegister Nat :=
  { r with state := r.state.reverse }

/-- A register on `n = 3` qubits whose permutation exchanges the positions of qubits 0 and 2:
`toPhysical = [2,1,0]`, `toLogical = [2,1,0]`; shard `[10, 11, 12, 13]`. -/
def reg3Swapped : QubitRegister Nat := ⟨3, ⟨[2, 1, 0], [2, 1, 0]⟩, [10, 11, 12, 13]⟩

/-- A register on `n = 3` qubits with the identity permutation and shard
`[10, 11, 12, 13]`. -/
def reg3 : QubitRegister Nat := ⟨3, ⟨[0, 1, 2], [0, 1, 2]⟩, [10, 11, 12, 13]⟩

/-- Rank 0 of four processes, MPI build, double precision. -/
def rank0of4 : Environment := { nprocs := 4, myrank := 0, has_mpi := true, elem_type := .ComplexDP }

/-- A register on `n = 4` qubits with the identity permutation and shard
`[10, 11, 12, 13]`. -/
def reg4 : QubitRegister Nat := ⟨4, ⟨[0, 1, 2, 3], [0, 1, 2, 3]⟩, [10, 11, 12, 13]⟩

/-- A single process, build without MPI, double precision. -/
def singleRank : Environment := { nprocs := 1, myrank := 0, has_mpi := false, elem_type := .ComplexDP }

/-- A register on `n = 3` qubits holding the whole state: identity permutation, shard
`[0, 1, ..., 7]`. -/
def reg3Full : QubitRegister Nat := ⟨3, ⟨[0, 1, 2], [0, 1, 2]⟩, [0, 1, 2, 3, 4, 5, 6, 7]⟩

/-- Two ranks on `n = 3` qubits: identity permutation, shards `[0, 1, 2, 3]` and
`[4, 5, 6, 7]`. -/
def twoRanks3 : List (QubitRegister Nat) :=
  [⟨3, ⟨[0, 1, 2], [0, 1, 2]⟩, [0, 1, 2, 3]⟩, ⟨3, ⟨[0, 1, 2], [0, 1, 2]⟩, [4, 5, 6, 7]⟩]

/-! ## Sequential write loops -/

theorem scatter_succ {β : Type} (k : Nat) (dest : Nat → Nat) (val : Nat → β) (init : List β) :
    scatter (k + 1) dest val init = (scatter k dest val init).set (dest k) (val k) := by
  simp [scatter, List.range_succ, List.foldl_append]

theorem scatter_length {β : Type} (k : Nat) (dest : Nat → Nat) (val : Nat → β)
    (init : List β) : (scatter k dest val init).length = init.length := by
  induction k with
  | zero => simp [scatter]
  | succ k ih => rw [scatter_succ, List.length_set, ih]

theorem scatter_getElem?_of_ne {β : Type} (k : Nat) (dest : Nat → Nat) (val : Nat → β)
    (init : List β) (j : Nat) (h : ∀ i, i < k → dest i ≠ j) :
    (scatter k dest val init)[j]? = init[j]? := by
  induction k with
  | zero => simp [scatter]
  | succ k ih =>
    rw [scatter_succ, List.getElem?_set_ne (h k (Nat.lt_succ_self k))]
    exact ih (fun i hi => h i (Nat.lt_succ_of_lt hi))

theorem scatter_getElem?_of_inj {β : Type} (k : Nat) (dest : Nat → Nat) (val : Nat → β)
    (init : List β) (hinj : ∀ i, i < k → ∀ j, j < k → dest i = dest j → i = j)
    (i : Nat) (hi : i < k) (hd : dest i < init.length) :
    (scatter k dest val init)[dest i]? = some (val i) := by
  induction k with
  | zero => omega
  | succ k ih =>
    rw [scatter_succ]
    by_cases hik : i = k
    · subst hik
      rw [List.getElem?_set_self (by rw [scatter_length]; exact hd)]
    · have hik2 : i < k := by omega
      have hne : dest k ≠ dest i := fun h =>
        hik (hinj i hi k (Nat.lt_succ_self k) h.symm)
      rw [List.getElem?_set_ne hne]
      exact ih (fun a ha b hb => hinj a (Nat.lt_succ_of_lt ha) b (Nat.lt_succ_of_lt hb)) hik2

/-- Marking loop: after `for i in [0, k): st[dest i] = true`, slot `j` is set exactly when it
was set before or some `dest i` hit it. -/
theorem scatter_true_getD (k : Nat) (dest : Nat → Nat) (init : List Bool) (j : Nat)
    (hj : j < init.length) :
    (scatter k dest (fun _ => true) init).getD j false = true ↔
      init.getD j false = true ∨ ∃ i, i < k ∧ dest i = j := by
  induction k with
  | zero => simp [scatter]
  | succ k ih =>
    rw [scatter_succ, List.getD_eq_getElem?_getD]
    by_cases hk : dest k = j
    · subst hk
      rw [List.getElem?_set_self (by rw [scatter_length]; exact hj)]
      simp only [Option.getD_some, true_iff]
      right; exact ⟨k, Nat.lt_succ_self k, rfl⟩
    · rw [List.getElem?_set_ne hk, ← List.getD_eq_getElem?_getD, ih]
      constructor
      · rintro (h | ⟨i, hi, hd⟩)
        · exact Or.inl h
        · exact Or.inr ⟨i, Nat.lt_succ_of_lt hi, hd⟩
      · rintro (h | ⟨i, hi, hd⟩)
        · exact Or.inl h
        · refine Or.inr ⟨i, ?_, hd⟩
          rcases Nat.lt_succ_iff_lt_or_eq.mp hi with h | h
          · exact h
          · subst h; exact absurd hd hk

/-! ## Bit-level description of the index maps -/

theorem testBit_shift_and_one (v s d j : Nat) :
    (((v >>> s) &&& 1) <<< d).testBit j = (decide (d = j) && v.testBit s) := by
  rw [Nat.testBit_shiftLeft, Nat.testBit_and, Nat.testBit_shiftRight]
  by_cases h : d = j
  · subst h; simp
  · by_cases h2 : d ≤ j
    · have h3 : j - d ≠ 0 := by omega
      have : Nat.testBit 1 (j - d) = false := by
        cases hb : Nat.testBit 1 (j - d) with
        | false => rfl
        | true => exact absurd (Nat.testBit_one_eq_true_iff_self_eq_zero.mp hb) h3
      simp [h, this]
    · simp [h, h2]

theorem testBit_foldl_or (k : Nat) (s d : Nat → Nat) (v j : Nat) :
    ((List.range k).foldl (fun acc q => acc ||| (((v >>> s q) &&& 1) <<< d q)) 0).testBit j
      = true ↔ ∃ q, q < k ∧ d q = j ∧ v.testBit (s q) = true := by
  induction k with
  | zero => simp
  | succ k ih =>
    rw [List.range_succ, List.foldl_append]
    simp only [List.foldl_cons, List.foldl_nil, Nat.testBit_or, Bool.or_eq_true, ih,
      testBit_shift_and_one, Bool.and_eq_true, decide_eq_true_eq]
    constructor
    · rintro (⟨q, hq, h⟩ | ⟨h1, h2⟩)
      · exact ⟨q, Nat.lt_succ_of_lt hq, h⟩
      · exact ⟨k, Nat.lt_succ_self k, h1, h2⟩
    · rintro ⟨q, hq, h⟩
      rcases Nat.lt_succ_iff_lt_or_eq.mp hq with h' | h'
      · exact Or.inl ⟨q, h', h⟩
      · subst h'; exact Or.inr h

theorem testBit_data2program_ (p : Permutation) (v j : Nat) :
    (p.data2program_ v).testBit j = true ↔
      j < p.map.length ∧ v.testBit (p.map.getD j 0) = true := by
  unfold Permutation.data2program_
  rw [testBit_foldl_or p.map.length (fun q => p.map.getD q 0) (fun q => q) v j]
  constructor
  · rintro ⟨q, hq, rfl, h⟩; exact ⟨hq, h⟩
  · rintro ⟨hq, h⟩; exact ⟨j, hq, rfl, h⟩

theorem testBit_program2data_ (p : Permutation) (v j : Nat) :
    (p.program2data_ v).testBit j = true ↔
      ∃ q, q < p.map.length ∧ p.map.getD q 0 = j ∧ v.testBit q = true := by
  unfold Permutation.program2data_
  exact testBit_foldl_or p.map.length (fun q => q) (fun q => p.map.getD q 0) v j

/-! ## Bijections of `[0, n)` stored in arrays -/

theorem surj_of_inj_lt (n : Nat) (f : Nat → Nat) (hlt : ∀ i, i < n → f i < n)
    (hinj : ∀ i, i < n → ∀ j, j < n → f i = f j → i = j) :
    ∀ j, j < n → ∃ i, i < n ∧ f i = j := by
  intro j hj
  have himg : (Finset.range n).image f = Finset.range n := by
    apply Finset.eq_of_subset_of_card_le
    · intro x hx
      rw [Finset.mem_image] at hx
      obtain ⟨i, hi, rfl⟩ := hx
      exact Finset.mem_range.mpr (hlt i (Finset.mem_range.mp hi))
    · rw [Finset.card_image_of_injOn]
      intro a ha b hb h
      exact hinj a (Finset.mem_range.mp ha) b (Finset.mem_range.mp hb) h
  have hmem : j ∈ (Finset.range n).image f := by
    rw [himg]; exact Finset.mem_range.mpr hj
  rw [Finset.mem_image] at hmem
  obtain ⟨i, hi, h⟩ := hmem
  exact ⟨i, Finset.mem_range.mp hi, h⟩

theorem IsBij.surj {n : Nat} {l : List Nat} (h : IsBij n l) :
    ∀ j, j < n → ∃ i, i < n ∧ l.getD i 0 = j :=
  surj_of_inj_lt n (fun i => l.getD i 0) h.2.1 h.2.2

theorem IsCandidate.isBij {n : Nat} {m : List Nat} (h : IsCandidate n m) : IsBij n m := by
  obtain ⟨hlen, hlt, hnd⟩ := h
  refine ⟨hlen, ?_, ?_⟩
  · intro i hi
    rw [List.getD_eq_getElem m 0 (by omega)]
    exact hlt _ (List.getElem_mem _)
  · intro i hi j hj hij
    have hi' : i < m.length := by omega
    have hj' : j < m.length := by omega
    rw [List.getD_eq_getElem m 0 hi', List.getD_eq_getElem m 0 hj'] at hij
    exact (List.Nodup.getElem_inj_iff hnd).mp hij

theorem list_ext_getD {l₁ l₂ : List Nat} {n : Nat} (h₁ : l₁.length = n) (h₂ : l₂.length = n)
    (h : ∀ i, i < n → l₁.getD i 0 = l₂.getD i 0) : l₁ = l₂ := by
  apply List.ext_getElem (by omega)
  intro i hi₁ hi₂
  have := h i (by omega)
  rwa [List.getD_eq_getElem l₁ 0 hi₁, List.getD_eq_getElem l₂ 0 hi₂] at this

theorem scatter_getD_of_inj (k : Nat) (dest : Nat → Nat) (val : Nat → Nat)
    (init : List Nat) (hinj : ∀ i, i < k → ∀ j, j < k → dest i = dest j → i = j)
    (i : Nat) (hi : i < k) (hd : dest i < init.length) :
    (scatter k dest val init).getD (dest i) 0 = val i := by
  rw [List.getD_eq_getElem?_getD, scatter_getElem?_of_inj k dest val init hinj i hi hd]
  rfl

theorem invert_eq_scatter (m : List Nat) :
    invert m = scatter m.length (fun i => m.getD i 0) (fun i => i)
      (List.replicate m.length 0) := rfl

theorem invert_length (m : List Nat) : (invert m).length = m.length := by
  rw [invert_eq_scatter, scatter_length, List.length_replicate]

theorem invert_getD {n : Nat} {m : List Nat} (h : IsBij n m) (i : Nat) (hi : i < n) :
    (invert m).getD (m.getD i 0) 0 = i := by
  rw [invert_eq_scatter, h.1]
  exact scatter_getD_of_inj n (fun i => m.getD i 0) (fun i => i) _ h.2.2 i hi
    (by rw [List.length_replicate]; exact h.2.1 i hi)

theorem getD_invert {n : Nat} {m : List Nat} (h : IsBij n m) (j : Nat) (hj : j < n) :
    (invert m).getD j 0 < n ∧ m.getD ((invert m).getD j 0) 0 = j := by
  obtain ⟨i, hi, rfl⟩ := h.surj j hj
  rw [invert_getD h i hi]
  exact ⟨hi, rfl⟩

theorem IsBij.invert {n : Nat} {m : List Nat} (h : IsBij n m) : IsBij n (invert m) := by
  refine ⟨by rw [invert_length, h.1], fun j hj => (getD_invert h j hj).1, ?_⟩
  intro i hi j hj hij
  rw [← (getD_invert h i hi).2, ← (getD_invert h j hj).2, hij]

theorem invert_invert {n : Nat} {m : List Nat} (h : IsBij n m) : invert (invert m) = m := by
  apply list_ext_getD (n := n) (by rw [invert_length, invert_length, h.1]) h.1
  intro i hi
  have := invert_getD h.invert (m.getD i 0) (h.2.1 i hi)
  rwa [invert_getD h i hi] at this

/-- On a bijective "direct" candidate the loop of lines 121-122 computes the inverse array. -/
theorem new_inverse_map_direct {n : Nat} {m : List Nat} (h : IsBij n m) :
    new_inverse_map m "direct" = some (invert m) := by
  have hs : new_inverse_map m "direct" =
      some (scatter m.length (fun i => m.getD i 0) (fun i => i) m) := rfl
  rw [hs]
  congr 1
  apply list_ext_getD (n := n) (by rw [scatter_length, h.1]) (by rw [invert_length, h.1])
  intro j hj
  obtain ⟨i, hi, rfl⟩ := h.surj j hj
  rw [invert_getD h i hi, h.1]
  exact scatter_getD_of_inj n (fun i => m.getD i 0) (fun i => i) _ h.2.2 i hi
    (by rw [h.1]; exact h.2.1 i hi)

theorem new_inverse_map_inverse (m : List Nat) : new_inverse_map m "inverse" = some m := rfl

theorem I1.isBij_map {p : Permutation} {n : Nat} (h : p.I1 n) : IsBij n p.map := by
  refine ⟨h.1, fun i hi => (h.2.2 i hi).1, ?_⟩
  intro i hi j hj hij
  rw [← (h.2.2 i hi).2, ← (h.2.2 j hj).2, hij]

/-- Under I1 the inverse array is the two-sided inverse of the forward array. -/
theorem I1.right_inv {p : Permutation} {n : Nat} (h : p.I1 n) (j : Nat) (hj : j < n) :
    p.imap.getD j 0 < n ∧ p.map.getD (p.imap.getD j 0) 0 = j := by
  obtain ⟨i, hi, rfl⟩ := (I1.isBij_map h).surj j hj
  rw [(h.2.2 i hi).2]
  exact ⟨hi, rfl⟩

theorem I1.isBij_imap {p : Permutation} {n : Nat} (h : p.I1 n) : IsBij n p.imap := by
  refine ⟨h.2.1, fun j hj => (I1.right_inv h j hj).1, ?_⟩
  intro i hi j hj hij
  rw [← (I1.right_inv h i hi).2, ← (I1.right_inv h j hj).2, hij]

theorem I1.imap_eq {p : Permutation} {n : Nat} (h : p.I1 n) : p.imap = invert p.map := by
  apply list_ext_getD h.2.1 (by rw [invert_length, h.1])
  intro j hj
  obtain ⟨i, hi, rfl⟩ := (I1.isBij_map h).surj j hj
  rw [(h.2.2 i hi).2, invert_getD (I1.isBij_map h) i hi]

theorem I1_of_direct {n : Nat} {m : List Nat} (h : IsBij n m) :
    Permutation.I1 { map := m, imap := invert m } n :=
  ⟨h.1, by rw [invert_length, h.1], fun i hi => ⟨h.2.1 i hi, invert_getD h i hi⟩⟩

theorem I1_of_inverse {n : Nat} {m : List Nat} (h : IsBij n m) :
    Permutation.I1 { map := invert m, imap := m } n :=
  ⟨by rw [invert_length, h.1], h.1, fun i hi => getD_invert h i hi⟩

/-! ## The composed index map -/

theorem testBit_false_of_lt {x n j : Nat} (hx : x < 2 ^ n) (hj : n ≤ j) :
    x.testBit j = false :=
  Nat.testBit_lt_two_pow (Nat.lt_of_lt_of_le hx (Nat.pow_le_pow_right (by decide) hj))

theorem testBit_remap {po pn : Permutation} {n : Nat} (ho : po.I1 n) (hn : pn.I1 n)
    (i q : Nat) (hq : q < n) :
    (remap po pn i).testBit (pn.map.getD q 0) = i.testBit (po.map.getD q 0) := by
  rw [Bool.eq_iff_iff]
  unfold remap
  rw [testBit_program2data_, hn.1]
  constructor
  · rintro ⟨q', hq', he, hb⟩
    have : q' = q := (I1.isBij_map hn).2.2 q' hq' q hq he
    subst this
    exact ((testBit_data2program_ po i q').mp hb).2
  · intro hb
    exact ⟨q, hq, rfl, (testBit_data2program_ po i q).mpr ⟨by rw [ho.1]; exact hq, hb⟩⟩

theorem testBit_remap_ge {po pn : Permutation} {n : Nat} (hn : pn.I1 n)
    (i j : Nat) (hj : n ≤ j) : (remap po pn i).testBit j = false := by
  cases hb : (remap po pn i).testBit j with
  | false => rfl
  | true =>
    unfold remap at hb
    rw [testBit_program2data_, hn.1] at hb
    obtain ⟨q, hq, he, _⟩ := hb
    have := (hn.2.2 q hq).1
    omega

theorem remap_lt {po pn : Permutation} {n : Nat} (hn : pn.I1 n) (i : Nat) :
    remap po pn i < 2 ^ n :=
  Nat.lt_pow_two_of_testBit _ (fun j hj => testBit_remap_ge hn i j hj)

/-- Going there and back: `remap pn po` undoes `remap po pn` on `[0, 2^n)`. -/
theorem remap_remap {po pn : Permutation} {n : Nat} (ho : po.I1 n) (hn : pn.I1 n)
    (i : Nat) (hi : i < 2 ^ n) : remap pn po (remap po pn i) = i := by
  apply Nat.eq_of_testBit_eq
  intro j
  by_cases hj : j < n
  · obtain ⟨hq, he⟩ := I1.right_inv ho j hj
    rw [← he, testBit_remap hn ho _ _ hq, testBit_remap ho hn _ _ hq]
  · rw [testBit_remap_ge ho _ j (by omega), testBit_false_of_lt hi (by omega)]

theorem remap_inj {po pn : Permutation} {n : Nat} (ho : po.I1 n) (hn : pn.I1 n)
    (i : Nat) (hi : i < 2 ^ n) (j : Nat) (hj : j < 2 ^ n)
    (h : remap po pn i = remap po pn j) : i = j := by
  rw [← remap_remap ho hn i hi, ← remap_remap ho hn j hj, h]

theorem remap_self {p : Permutation} {n : Nat} (h : p.I1 n) (i : Nat) (hi : i < 2 ^ n) :
    remap p p i = i := by
  apply Nat.eq_of_testBit_eq
  intro j
  by_cases hj : j < n
  · obtain ⟨hq, he⟩ := I1.right_inv h j hj
    rw [← he, testBit_remap h h _ _ hq]
  · rw [testBit_remap_ge h _ j (by omega), testBit_false_of_lt hi (by omega)]

/-- When the global positions `[M, n)` hold the same qubits before and after, the index map
keeps `[0, 2^M)` inside itself. -/
theorem remap_lt_local {po pn : Permutation} {n M : Nat} (ho : po.I1 n) (hn : pn.I1 n)
    (hglob : ∀ pos, M ≤ pos → pos < n → po.imap.getD pos 0 = pn.imap.getD pos 0)
    (i : Nat) (hi : i < 2 ^ M) : remap po pn i < 2 ^ M := by
  apply Nat.lt_pow_two_of_testBit
  intro j hj
  by_cases hjn : j < n
  · obtain ⟨hq, he⟩ := I1.right_inv hn j hjn
    have he' := (I1.right_inv ho j hjn).2
    rw [hglob j hj hjn] at he'
    rw [← he, testBit_remap ho hn _ _ hq, he']
    exact testBit_false_of_lt hi hj
  · exact testBit_remap_ge hn i j (by omega)

/-! ## The number of local positions -/

theorem ilog2Aux_two_pow (k fuel : Nat) (h : k ≤ fuel) : ilog2Aux fuel (2 ^ k) = k := by
  induction k generalizing fuel with
  | zero => cases fuel <;> simp [ilog2Aux]
  | succ k ih =>
    cases fuel with
    | zero => omega
    | succ fuel =>
      have h2 : 2 ≤ 2 ^ (k + 1) := by
        have := Nat.one_le_two_pow (n := k)
        rw [Nat.pow_succ]; omega
      have hd : 2 ^ (k + 1) / 2 = 2 ^ k := by
        rw [Nat.pow_succ, Nat.mul_div_cancel _ (by decide : 0 < 2)]
      simp only [ilog2Aux, h2, if_true, hd]
      rw [ih fuel (by omega)]

theorem ilog2_two_pow (k : Nat) : ilog2 (2 ^ k) = k :=
  ilog2Aux_two_pow k (2 ^ k) (Nat.le_of_lt (Nat.lt_two_pow k))

theorem localBits_two_pow {α : Type} (env : Environment) (reg : QubitRegister α) (k : Nat)
    (h : env.nprocs = 2 ^ k) : localBits env reg = reg.num_qubits - k := by
  unfold localBits
  rw [h, ilog2_two_pow]

theorem localBits_one {α : Type} (env : Environment) (reg : QubitRegister α)
    (h : env.nprocs = 1) : localBits env reg = reg.num_qubits :=
  localBits_two_pow env reg 0 (by rw [h]; rfl)

/-! ## The validation loops -/

theorem localMarks_getD (new_inv : List Nat) (M q : Nat) (hq : q < new_inv.length) :
    (localMarks new_inv M).getD q false = true ↔ ∃ pos, pos < M ∧ new_inv.getD pos 0 = q := by
  have h : localMarks new_inv M =
      scatter M (fun pos => new_inv.getD pos 0) (fun _ => true)
        (List.replicate new_inv.length false) := rfl
  rw [h, scatter_true_getD _ _ _ _ (by rw [List.length_replicate]; exact hq)]
  have h0 : (List.replicate new_inv.length false).getD q false = false := by
    rw [List.getD_eq_getElem _ _ (by rw [List.length_replicate]; exact hq)]
    exact List.getElem_replicate _ _
  rw [h0]
  simp

/-- The three loops of lines 130-136 accept exactly when every qubit at an old local position
is at some new local position and the global positions hold the same qubits. -/
theorem localGuard_iff (old_inv new_inv : List Nat) (M n : Nat)
    (hold : ∀ pos, pos < M → old_inv.getD pos 0 < new_inv.length) :
    localGuard old_inv new_inv M n = true ↔
      (∀ pos, pos < M → ∃ pos', pos' < M ∧ new_inv.getD pos' 0 = old_inv.getD pos 0) ∧
      (∀ pos, M ≤ pos → pos < n → old_inv.getD pos 0 = new_inv.getD pos 0) := by
  unfold localGuard
  rw [Bool.and_eq_true, List.all_eq_true, List.all_eq_true]
  constructor
  · rintro ⟨h1, h2⟩
    refine ⟨fun pos hp => ?_, fun pos hp1 hp2 => ?_⟩
    · exact (localMarks_getD new_inv M _ (hold pos hp)).mp (h1 pos (List.mem_range.mpr hp))
    · have := h2 pos (List.mem_range'_1.mpr ⟨hp1, by omega⟩)
      exact beq_iff_eq.mp this
  · rintro ⟨h1, h2⟩
    refine ⟨fun pos hp => ?_, fun pos hp => ?_⟩
    · have hp' := List.mem_range.mp hp
      exact (localMarks_getD new_inv M _ (hold pos hp')).mpr (h1 pos hp')
    · have hp' := List.mem_range'_1.mp hp
      exact beq_iff_eq.mpr (h2 pos hp'.1 (by omega))

/-! ## Candidates -/

/-- A bijective candidate in a valid style denotes a permutation satisfying I1; the inverse map
the methods resolve is its inverse array, and rebuilding a permutation from that inverse array
gives the same permutation. -/
theorem candidate_resolve {n : Nat} {new_map : List Nat} {style_of_map : String}
    (hb : IsBij n new_map)
    (hstyle : style_of_map = "direct" ∨ style_of_map = "inverse") :
    ∃ cand, Permutation.ofMap new_map style_of_map = some cand ∧ cand.I1 n ∧
      new_inverse_map new_map style_of_map = some cand.imap ∧
      Permutation.ofMap cand.imap "inverse" = some cand := by
  rcases hstyle with h | h <;> subst h
  · refine ⟨{ map := new_map, imap := invert new_map }, rfl, I1_of_direct hb,
      new_inverse_map_direct hb, ?_⟩
    show some (Permutation.mk (invert (invert new_map)) (invert new_map)) = _
    rw [invert_invert hb]
  · exact ⟨{ map := invert new_map, imap := new_map }, rfl, I1_of_inverse hb, rfl, rfl⟩

/-! ## The local engine -/

theorem remapLocal_spec {α : Type} [Zero α] (po pn : Permutation) (state : List α)
    (hin : ∀ i, i < state.length → remap po pn i < state.length)
    (hinj : ∀ i, i < state.length → ∀ j, j < state.length →
      remap po pn i = remap po pn j → i = j) :
    (remapLocal po pn state).length = state.length ∧
      ∀ i, i < state.length → (remapLocal po pn state)[remap po pn i]? = state[i]? := by
  have hcopy : scatter state.length (fun i => i) (fun i => state.getD i 0)
      (List.replicate state.length 0) = state := by
    apply List.ext_getElem?
    intro i
    by_cases hi : i < state.length
    · have := scatter_getElem?_of_inj state.length (fun i => i) (fun i => state.getD i 0)
        (List.replicate state.length 0) (fun a _ b _ h => h) i hi
        (by rw [List.length_replicate]; exact hi)
      rw [this]
      show some (state.getD i 0) = state[i]?
      rw [List.getD_eq_getElem _ _ hi, List.getElem?_eq_getElem hi]
    · rw [List.getElem?_eq_none (by rw [scatter_length, List.length_replicate]; omega),
        List.getElem?_eq_none (by omega)]
  have hdef : remapLocal po pn state =
      scatter state.length (remap po pn)
        (fun i => (scatter state.length (fun i => i) (fun i => state.getD i 0)
          (List.replicate state.length 0)).getD i 0) state := rfl
  rw [hdef, hcopy]
  refine ⟨scatter_length _ _ _ _, fun i hi => ?_⟩
  rw [scatter_getElem?_of_inj state.length (remap po pn) (fun i => state.getD i 0) state
    hinj i hi (hin i hi)]
  show some (state.getD i 0) = state[i]?
  rw [List.getD_eq_getElem _ _ hi, List.getElem?_eq_getElem hi]

/-- A list obtained from `l` by moving the element of every slot `i` to slot `f i`, for an
injective `f` that stays in range, is a rearrangement of `l`. -/
theorem perm_of_rearranged {α : Type} (l l' : List α) (f : Nat → Nat)
    (hlen : l'.length = l.length)
    (hin : ∀ i, i < l.length → f i < l.length)
    (hinj : ∀ i, i < l.length → ∀ j, j < l.length → f i = f j → i = j)
    (hget : ∀ i, i < l.length → l'[f i]? = l[i]?) : l'.Perm l := by
  have key : ∀ (n : Nat) (g g' : Fin n → α) (σ : Fin n → Fin n), Function.Injective σ →
      (∀ i, g' (σ i) = g i) → (List.ofFn g').Perm (List.ofFn g) := by
    intro n g g' σ hσ h
    have hb : Function.Bijective σ := ⟨hσ, Finite.injective_iff_surjective.mp hσ⟩
    have hp := Equiv.Perm.ofFn_comp_perm (Equiv.ofBijective σ hb) g'
    have hc : g' ∘ (Equiv.ofBijective σ hb) = g := funext (fun i => h i)
    rw [hc] at hp
    exact hp.symm
  have h1 : List.ofFn (fun i : Fin l.length => l.get ⟨i.val, i.isLt⟩) = l := by
    apply List.ext_getElem (by simp)
    intro i hi₁ hi₂
    simp
  have h2 : List.ofFn (fun i : Fin l.length => l'.get ⟨i.val, by rw [hlen]; exact i.isLt⟩)
      = l' := by
    apply List.ext_getElem (by simp [hlen])
    intro i hi₁ hi₂
    simp
  rw [← h1, ← h2]
  refine key l.length _ _ (fun i => ⟨f i.val, hin i.val i.isLt⟩) ?_ ?_
  · intro a b hab
    exact Fin.ext (hinj a.val a.isLt b.val b.isLt (Fin.mk.inj_iff.mp hab))
  · intro i
    have hg := hget i.val i.isLt
    have hf : f i.val < l'.length := by rw [hlen]; exact hin i.val i.isLt
    rw [List.getElem?_eq_getElem hf, List.getElem?_eq_getElem i.isLt] at hg
    simpa using hg

theorem PermuteLocal_of_guard {α : Type} [Zero α] (env : Environment) (reg : QubitRegister α)
    (new_map : List Nat) (style_of_map : String) (cand : Permutation)
    (hlen : new_map.length = reg.num_qubits)
    (hres : new_inverse_map new_map style_of_map = some cand.imap)
    (hof : Permutation.ofMap cand.imap "inverse" = some cand) :
    PermuteLocal env reg new_map style_of_map =
      if localGuard reg.permutation.imap cand.imap (localBits env reg) reg.num_qubits then
        .done { reg with
          state := remapLocal reg.permutation cand reg.state
          permutation := cand }
      else .abort reg := by
  unfold PermuteLocal
  rw [if_neg (by simpa using hlen), hres]
  simp only [hof]
  cases localGuard reg.permutation.imap cand.imap (localBits env reg) reg.num_qubits <;> rfl

/-- The index in `[0, 2^n)` with prescribed bits at the positions of a permutation is
unique. -/
theorem remap_unique {po pn : Permutation} {n : Nat} (ho : po.I1 n) (hn : pn.I1 n)
    (i y : Nat) (hy : y < 2 ^ n)
    (h : ∀ q, q < n → y.testBit (pn.map.getD q 0) = i.testBit (po.map.getD q 0)) :
    y = remap po pn i := by
  apply Nat.eq_of_testBit_eq
  intro j
  by_cases hj : j < n
  · obtain ⟨hq, he⟩ := I1.right_inv hn j hj
    rw [← he, testBit_remap ho hn _ _ hq, h _ hq]
  · rw [testBit_remap_ge hn _ j (by omega), testBit_false_of_lt hy (by omega)]

theorem new_inverse_map_style {new_map : List Nat} {style_of_map : String}
    (h : style_of_map ≠ "direct" ∧ style_of_map ≠ "inverse") :
    new_inverse_map new_map style_of_map = none := by
  unfold new_inverse_map
  rw [if_neg h.1, if_pos h.2]

theorem PermuteLocal_succeeded_style {α : Type} [Zero α] (env : Environment)
    (reg : QubitRegister α) (new_map : List Nat) (style_of_map : String)
    (h : (PermuteLocal env reg new_map style_of_map).succeeded = true) :
    style_of_map = "direct" ∨ style_of_map = "inverse" := by
  by_cases h1 : style_of_map = "direct"
  · exact Or.inl h1
  · by_cases h2 : style_of_map = "inverse"
    · exact Or.inr h2
    · exfalso
      unfold PermuteLocal at h
      rw [new_inverse_map_style ⟨h1, h2⟩] at h
      split at h <;> simp [Outcome.succeeded] at h

/-! ## The distributed scan -/

theorem scatter_getElem?_of_inj_in_range {β : Type} (k : Nat) (dest : Nat → Nat)
    (val : Nat → β) (init : List β)
    (hinj : ∀ i, i < k → ∀ j, j < k → dest i = dest j → dest i < init.length → i = j)
    (i : Nat) (hi : i < k) (hd : dest i < init.length) :
    (scatter k dest val init)[dest i]? = some (val i) := by
  induction k with
  | zero => omega
  | succ k ih =>
    rw [scatter_succ]
    by_cases hik : i = k
    · subst hik
      rw [List.getElem?_set_self (by rw [scatter_length]; exact hd)]
    · have hik2 : i < k := by omega
      have hne : dest k ≠ dest i := fun h =>
        hik (hinj i hi k (Nat.lt_succ_self k) h.symm hd)
      rw [List.getElem?_set_ne hne]
      exact ih (fun a ha b hb => hinj a (Nat.lt_succ_of_lt ha) b (Nat.lt_succ_of_lt hb)) hik2

/-- The destination of scan iteration `i` on rank `myrank`: the local offset when the element
belongs to this rank, and otherwise a slot past the end of the shard (no write). -/
theorem scanGlobal_eq {α : Type} [Zero α] (po pn : Permutation) (L myrank G : Nat)
    (glb_state state : List α) (hL : 0 < L) :
    scanGlobal po pn L myrank G glb_state state =
      .done (scatter G
        (fun i => if remap po pn i / L = myrank then remap po pn i % L else state.length)
        (fun i => glb_state.getD i 0) state) := by
  induction G with
  | zero => rfl
  | succ G ih =>
    unfold scanGlobal at ih ⊢
    rw [List.range_succ, List.foldl_append, ih, scatter_succ]
    simp only [List.foldl_cons, List.foldl_nil, scanStep]
    have hmod : remap po pn G - remap po pn G / L * L = remap po pn G % L := by
      rw [Nat.mod_def, Nat.mul_comm]
    by_cases hr : remap po pn G / L = myrank
    · rw [if_pos hr, if_pos hr, hmod, if_pos (Nat.mod_lt _ hL)]
    · rw [if_neg hr, if_neg hr, List.set_eq_of_length_le (by rw [scatter_length])]

/-- For double-precision elements the buffers of the all-gather have the size its datatype
asks for, and every process receives the concatenated shards. -/
theorem MPI_Allgather_double {α : Type} (count : Nat) (shards : List (List α)) :
    MPI_Allgather .ComplexDP count shards = some shards.flatten := by
  unfold MPI_Allgather
  rw [if_pos (show count * sizeof_MPI_DOUBLE_COMPLEX ≤ count * ElementType.sizeof .ComplexDP
    from Nat.le_refl _)]

/-- For single-precision elements and a non-empty shard the all-gather overruns its
buffers. -/
theorem MPI_Allgather_single {α : Type} (count : Nat) (shards : List (List α))
    (hc : 0 < count) : MPI_Allgather .ComplexSP count shards = none := by
  unfold MPI_Allgather
  rw [if_neg]
  show ¬ count * 16 ≤ count * 8
  omega

theorem Permute_multi {α : Type} [Zero α] (env : Environment) (shards : List (List α))
    (reg : QubitRegister α) (new_map : List Nat) (style_of_map : String) (cand : Permutation)
    (hlen : new_map.length = reg.num_qubits) (hP : env.nprocs ≠ 1)
    (hmpi : env.has_mpi = true) (hT : env.elem_type = .ComplexDP)
    (hof : Permutation.ofMap new_map style_of_map = some cand)
    (hL : 0 < reg.state.length) :
    Permute env shards reg new_map style_of_map =
      .done { reg with
        state := scatter (reg.GlobalSize env)
          (fun i => if remap reg.permutation cand i / reg.state.length = env.myrank then
            remap reg.permutation cand i % reg.state.length else reg.state.length)
          (fun i => shards.flatten.getD i 0) reg.state
        permutation := cand } := by
  unfold Permute
  rw [if_neg (by simpa using hlen.symm), if_neg hP, hof]
  simp only [hmpi, hT, MPI_Allgather_double]
  rw [show reg.LocalSize = reg.state.length from rfl, scanGlobal_eq _ _ _ _ _ _ _ hL]
  rfl

/-- In the multi-node branch, single-precision elements and a non-empty shard lead into the
overrun of the all-gather, once the size, style and MPI-build assertions have passed. -/
theorem Permute_multi_single {α : Type} [Zero α] (env : Environment)
    (shards : List (List α)) (reg : QubitRegister α) (new_map : List Nat)
    (style_of_map : String) (cand : Permutation)
    (hlen : new_map.length = reg.num_qubits) (hP : env.nprocs ≠ 1)
    (hmpi : env.has_mpi = true) (hT : env.elem_type = .ComplexSP)
    (hof : Permutation.ofMap new_map style_of_map = some cand)
    (hL : 0 < reg.state.length) :
    Permute env shards reg new_map style_of_map = .undefined := by
  unfold Permute
  rw [if_neg (by simpa using hlen.symm), if_neg hP, hof]
  simp only [hmpi, hT]
  rw [show reg.LocalSize = reg.state.length from rfl, MPI_Allgather_single _ _ hL]
  rfl

theorem flatten_uniform_length {α : Type} (ls : List (List α)) (L : Nat)
    (h : ∀ l ∈ ls, l.length = L) : ls.flatten.length = ls.length * L := by
  induction ls with
  | nil => simp
  | cons l ls ih =>
    rw [List.flatten_cons, List.length_append, ih (fun x hx => h x (List.mem_cons_of_mem _ hx)),
      h l (List.mem_cons_self _ _), List.length_cons, Nat.succ_mul, Nat.add_comm]

theorem flatten_uniform_getElem? {α : Type} (ls : List (List α)) (L : Nat)
    (h : ∀ l ∈ ls, l.length = L) (r o : Nat) (ho : o < L) :
    ls.flatten[r * L + o]? = (ls[r]?).bind (fun l => l[o]?) := by
  induction ls generalizing r with
  | nil => simp
  | cons l ls ih =>
    have hl := h l (List.mem_cons_self _ _)
    rw [List.flatten_cons]
    cases r with
    | zero =>
      rw [Nat.zero_mul, Nat.zero_add, List.getElem?_append_left (by omega)]
      simp
    | succ r =>
      rw [List.getElem?_append_right (by rw [hl, Nat.succ_mul]; omega)]
      have : (r + 1) * L + o - l.length = r * L + o := by rw [hl, Nat.succ_mul]; omega
      rw [this, ih (fun x hx => h x (List.mem_cons_of_mem _ hx))]
      simp

theorem two_pow_split {n k : Nat} (hk : k ≤ n) : 2 ^ (n - k) * 2 ^ k = 2 ^ n := by
  rw [← Nat.pow_add, Nat.sub_add_cancel hk]

/-- The shard a rank holds after the scan: every global element whose destination lies in the
rank's range has been stored at its local offset. -/
theorem scan_state_spec {α : Type} [Zero α] (po pn : Permutation) (n k r : Nat)
    (ho : po.I1 n) (hn : pn.I1 n) (glb_state state : List α)
    (hst : state.length = 2 ^ (n - k)) (hglb : glb_state.length = 2 ^ n) :
    (scatter (2 ^ n)
        (fun i => if remap po pn i / state.length = r then
          remap po pn i % state.length else state.length)
        (fun i => glb_state.getD i 0) state).length = 2 ^ (n - k) ∧
      ∀ i, i < 2 ^ n → remap po pn i / 2 ^ (n - k) = r →
        (scatter (2 ^ n)
          (fun i => if remap po pn i / state.length = r then
            remap po pn i % state.length else state.length)
          (fun i => glb_state.getD i 0) state)[remap po pn i % 2 ^ (n - k)]? =
        glb_state[i]? := by
  have hpos : 0 < 2 ^ (n - k) := Nat.two_pow_pos (n - k)
  refine ⟨by rw [scatter_length, hst], fun i hi hr => ?_⟩
  have hd : (fun i => if remap po pn i / state.length = r then
      remap po pn i % state.length else state.length) i = remap po pn i % 2 ^ (n - k) := by
    simp only [hst, hr, if_true]
  rw [← hd]
  rw [scatter_getElem?_of_inj_in_range (2 ^ n) _ (fun i => glb_state.getD i 0) state ?_ i hi
    (by simp only [hst, hr, if_true]; exact Nat.mod_lt _ hpos)]
  · show some (glb_state.getD i 0) = glb_state[i]?
    rw [List.getD_eq_getElem _ _ (by omega), List.getElem?_eq_getElem (by omega)]
  · intro a ha b hb hab hlt
    simp only [hst] at hab hlt
    by_cases h1 : remap po pn a / 2 ^ (n - k) = r
    · by_cases h2 : remap po pn b / 2 ^ (n - k) = r
      · rw [if_pos h1, if_pos h2] at hab
        apply remap_inj ho hn a ha b hb
        rw [← Nat.div_add_mod (remap po pn a) (2 ^ (n - k)),
          ← Nat.div_add_mod (remap po pn b) (2 ^ (n - k)), h1, h2, hab]
      · rw [if_pos h1, if_neg h2] at hab
        rw [if_pos h1] at hlt
        omega
    · rw [if_neg h1] at hlt
      omega

/-! ## The swap of two positions -/

theorem getD_set (l : List Nat) (i j a : Nat) :
    (l.set i a).getD j 0 = if i = j ∧ j < l.length then a else l.getD j 0 := by
  rw [List.getD_eq_getElem?_getD, List.getD_eq_getElem?_getD, List.getElem?_set]
  by_cases h : i = j
  · subst h
    by_cases h2 : i < l.length
    · simp [h2]
    · simp [h2, List.getElem?_eq_none (Nat.le_of_not_lt h2)]
  · simp [h]

/-- Exchanging the positions of the logical qubits `q1` and `q2`: the forward array. -/
theorem ExchangeTwoElements_map {p : Permutation} {n : Nat} (h : p.I1 n) (q1 q2 : Nat)
    (hq1 : q1 < n) (hq2 : q2 < n) (q : Nat) :
    (p.ExchangeTwoElements (p.map.getD q1 0) (p.map.getD q2 0)).map.getD q 0 =
      if q = q2 then p.map.getD q1 0 else if q = q1 then p.map.getD q2 0
      else p.map.getD q 0 := by
  unfold Permutation.ExchangeTwoElements
  simp only [(h.2.2 q1 hq1).2, (h.2.2 q2 hq2).2, getD_set, List.length_set, h.1]
  by_cases h2 : q = q2
  · subst h2; rw [if_pos ⟨rfl, hq2⟩, if_pos rfl]
  · rw [if_neg (fun e => h2 e.1.symm), if_neg h2]
    by_cases h1 : q = q1
    · subst h1; rw [if_pos ⟨rfl, hq1⟩, if_pos rfl]
    · rw [if_neg (fun e => h1 e.1.symm), if_neg h1]

/-- Exchanging the positions of the logical qubits `q1` and `q2`: the inverse array. -/
theorem ExchangeTwoElements_imap {p : Permutation} {n : Nat} (h : p.I1 n) (q1 q2 : Nat)
    (hq1 : q1 < n) (hq2 : q2 < n) (pos : Nat) :
    (p.ExchangeTwoElements (p.map.getD q1 0) (p.map.getD q2 0)).imap.getD pos 0 =
      if pos = p.map.getD q2 0 then q1 else if pos = p.map.getD q1 0 then q2
      else p.imap.getD pos 0 := by
  unfold Permutation.ExchangeTwoElements
  simp only [(h.2.2 q1 hq1).2, (h.2.2 q2 hq2).2, getD_set, List.length_set, h.2.1]
  have hp1 := (h.2.2 q1 hq1).1
  have hp2 := (h.2.2 q2 hq2).1
  by_cases h2 : pos = p.map.getD q2 0
  · subst h2; rw [if_pos ⟨rfl, hp2⟩, if_pos rfl]
  · rw [if_neg (fun e => h2 e.1.symm), if_neg h2]
    by_cases h1 : pos = p.map.getD q1 0
    · subst h1; rw [if_pos ⟨rfl, hp1⟩, if_pos rfl]
    · rw [if_neg (fun e => h1 e.1.symm), if_neg h1]

theorem ExchangeTwoElements_I1 {p : Permutation} {n : Nat} (h : p.I1 n) (q1 q2 : Nat)
    (hq1 : q1 < n) (hq2 : q2 < n) :
    (p.ExchangeTwoElements (p.map.getD q1 0) (p.map.getD q2 0)).I1 n := by
  have hinj := (I1.isBij_map h).2.2
  refine ⟨?_, ?_, fun i hi => ?_⟩
  · simp [Permutation.ExchangeTwoElements, h.1]
  · simp [Permutation.ExchangeTwoElements, h.2.1]
  · rw [ExchangeTwoElements_imap h q1 q2 hq1 hq2, ExchangeTwoElements_map h q1 q2 hq1 hq2]
    by_cases h2 : i = q2
    · subst h2
      rw [if_pos rfl]
      refine ⟨(h.2.2 q1 hq1).1, ?_⟩
      by_cases h12 : p.map.getD q1 0 = p.map.getD i 0
      · rw [if_pos h12]; exact hinj q1 hq1 i hi h12
      · rw [if_neg h12, if_pos rfl]
    · rw [if_neg h2]
      by_cases h1 : i = q1
      · subst h1
        rw [if_pos rfl, if_pos rfl]
        exact ⟨(h.2.2 q2 hq2).1, rfl⟩
      · rw [if_neg h1]
        refine ⟨(h.2.2 i hi).1, ?_⟩
        rw [if_neg (fun e => h2 (hinj i hi q2 hq2 e)),
          if_neg (fun e => h1 (hinj i hi q1 hq1 e))]
        exact (h.2.2 i hi).2

/-- What a completed `EmulateSwap` returns. -/
theorem EmulateSwap_done {α : Type} (reg reg' : QubitRegister α) (qubit_1 qubit_2 : Nat)
    (h : EmulateSwap reg qubit_1 qubit_2 = .done reg') :
    qubit_1 < reg.num_qubits ∧ qubit_2 < reg.num_qubits ∧
      reg' = { reg with permutation := (reg.permutation.ExchangeTwoElements
        (reg.permutation.map.getD qubit_1 0) (reg.permutation.map.getD qubit_2 0)) } := by
  unfold EmulateSwap at h
  by_cases h1 : qubit_1 < reg.num_qubits
  · by_cases h2 : qubit_2 < reg.num_qubits
    · rw [if_neg (not_not.mpr h1), if_neg (not_not.mpr h2)] at h
      dsimp only at h
      by_cases h3 : reg.permutation.get qubit_1 < reg.num_qubits
      · by_cases h4 : reg.permutation.get qubit_2 < reg.num_qubits
        · rw [if_neg (not_not.mpr h3), if_neg (not_not.mpr h4)] at h
          cases h
          exact ⟨h1, h2, rfl⟩
        · rw [if_neg (not_not.mpr h3), if_pos h4] at h
          cases h
      · rw [if_pos h3] at h
        cases h
    · rw [if_neg (not_not.mpr h1), if_pos h2] at h
      cases h
  · rw [if_pos h1] at h
    cases h

/-- `EmulateSwap` completes on valid qubits of a register satisfying I1. -/
theorem EmulateSwap_of_I1 {α : Type} (reg : QubitRegister α) (qubit_1 qubit_2 : Nat)
    (hI1 : reg.permutation.I1 reg.num_qubits)
    (h1 : qubit_1 < reg.num_qubits) (h2 : qubit_2 < reg.num_qubits) :
    EmulateSwap reg qubit_1 qubit_2 =
      .done { reg with permutation := (reg.permutation.ExchangeTwoElements
        (reg.permutation.map.getD qubit_1 0) (reg.permutation.map.getD qubit_2 0)) } := by
  unfold EmulateSwap
  have hp1 : reg.permutation.get qubit_1 < reg.num_qubits := (hI1.2.2 _ h1).1
  have hp2 : reg.permutation.get qubit_2 < reg.num_qubits := (hI1.2.2 _ h2).1
  rw [if_neg (not_not.mpr h1), if_neg (not_not.mpr h2), if_neg (not_not.mpr hp1),
    if_neg (not_not.mpr hp2)]
  rfl

/-! ## Completed calls -/

theorem ofMap_style {m : List Nat} {style_of_map : String}
    (h : style_of_map ≠ "direct" ∧ style_of_map ≠ "inverse") :
    Permutation.ofMap m style_of_map = none := by
  unfold Permutation.ofMap
  rw [if_neg h.1, if_neg h.2]

/-- What a completed `PermuteLocal` returns on a bijective candidate. -/
theorem PermuteLocal_done {α : Type} [Zero α] (env : Environment) (reg reg' : QubitRegister α)
    (new_map : List Nat) (style_of_map : String)
    (hcand : IsCandidate reg.num_qubits new_map)
    (h : PermuteLocal env reg new_map style_of_map = .done reg') :
    ∃ cand, Permutation.ofMap new_map style_of_map = some cand ∧ cand.I1 reg.num_qubits ∧
      localGuard reg.permutation.imap cand.imap (localBits env reg) reg.num_qubits = true ∧
      reg' = { reg with
        state := remapLocal reg.permutation cand reg.state
        permutation := cand } := by
  have hstyle := PermuteLocal_succeeded_style env reg new_map style_of_map
    (by rw [h]; rfl)
  obtain ⟨cand, hof, hc1, hres, hof'⟩ := candidate_resolve hcand.isBij hstyle
  have hrun := PermuteLocal_of_guard env reg new_map style_of_map cand hcand.1 hres hof'
  rw [h] at hrun
  cases hg : localGuard reg.permutation.imap cand.imap (localBits env reg) reg.num_qubits
  · rw [hg] at hrun
    cases hrun
  · rw [hg, if_pos rfl] at hrun
    exact ⟨cand, hof, hc1, hg, Outcome.done.inj hrun⟩

/-- What a completed `Permute` installs on a bijective candidate. -/
theorem Permute_done {α : Type} [Zero α] (env : Environment) (shards : List (List α))
    (reg reg' : QubitRegister α) (new_map : List Nat) (style_of_map : String)
    (hcand : IsCandidate reg.num_qubits new_map)
    (h : Permute env shards reg new_map style_of_map = .done reg') :
    ∃ cand, Permutation.ofMap new_map style_of_map = some cand ∧ cand.I1 reg.num_qubits ∧
      reg'.permutation = cand ∧ reg'.num_qubits = reg.num_qubits := by
  unfold Permute at h
  rw [if_neg (by simpa using hcand.1.symm)] at h
  by_cases hP : env.nprocs = 1
  · rw [if_pos hP] at h
    obtain ⟨cand, hof, hc1, -, rfl⟩ := PermuteLocal_done env reg reg' new_map style_of_map
      hcand h
    exact ⟨cand, hof, hc1, rfl, rfl⟩
  · rw [if_neg hP] at h
    by_cases hstyle : style_of_map = "direct" ∨ style_of_map = "inverse"
    · obtain ⟨cand, hof, hc1, -, -⟩ := candidate_resolve hcand.isBij hstyle
      rw [hof] at h
      dsimp only at h
      split at h
      · cases h
      · split at h
        · cases h
        · split at h
          · cases h
          · cases h
          · cases h
            exact ⟨cand, hof, hc1, rfl, rfl⟩
    · rw [ofMap_style (not_or.mp hstyle)] at h
      cases h

/-- What a completed `PermuteByLocalGlobalExchangeOfSinglePair` did: exactly two logical qubits
`e0 < e1` differ, one index is below `M` and the other is not, and the register is the one
`EmulateSwap` returns after `ApplySwap`. -/
theorem SinglePair_done {α : Type} (env : Environment)
    (ApplySwap : QubitRegister α → Nat → Nat → QubitRegister α)
    (reg reg' : QubitRegister α) (new_map : List Nat) (style_of_map : String)
    (h : PermuteByLocalGlobalExchangeOfSinglePair env ApplySwap reg new_map style_of_map
      = .done reg') :
    ∃ cand e0 e1, Permutation.ofMap new_map style_of_map = some cand ∧
      exchanged_qubits cand reg.permutation reg.num_qubits = [e0, e1] ∧
      ((e0 < localBits env reg ∧ localBits env reg ≤ e1 ∧
          EmulateSwap (ApplySwap reg e0 e1) e0 e1 = .done reg') ∨
        (¬ e0 < localBits env reg ∧ e1 < localBits env reg ∧
          EmulateSwap (ApplySwap reg e1 e0) e1 e0 = .done reg')) := by
  unfold PermuteByLocalGlobalExchangeOfSinglePair at h
  cases hof : Permutation.ofMap new_map style_of_map with
  | none => rw [hof] at h; cases h
  | some cand =>
    rw [hof] at h
    dsimp only at h
    by_cases hlen : (exchanged_qubits cand reg.permutation reg.num_qubits).length = 2
    · obtain ⟨e0, e1, hex⟩ := List.length_eq_two.mp hlen
      rw [if_neg (by simpa using hlen), hex] at h
      simp only [List.getD_cons_zero, List.getD_cons_succ] at h
      refine ⟨cand, e0, e1, rfl, hex, ?_⟩
      by_cases h0 : e0 < localBits env reg
      · rw [if_pos h0] at h
        by_cases h1 : e1 ≥ localBits env reg
        · rw [if_neg (not_not.mpr h1)] at h
          exact Or.inl ⟨h0, h1, h⟩
        · rw [if_pos h1] at h
          cases h
      · rw [if_neg h0] at h
        by_cases h1 : e1 < localBits env reg
        · rw [if_neg (not_not.mpr h1)] at h
          exact Or.inr ⟨h0, h1, h⟩
        · rw [if_pos h1] at h
          cases h
    · rw [if_pos hlen] at h
      cases h

/-! ## All ranks together -/

/-- With one partition every bijective candidate passes the guard, and `PermuteLocal` returns
the remapped shard with the candidate installed. -/
theorem PermuteLocal_single {α : Type} [Zero α] (env : Environment) (reg : QubitRegister α)
    (new_map : List Nat) (style_of_map : String) (cand : Permutation)
    (hP : env.nprocs = 1) (hI1 : reg.permutation.I1 reg.num_qubits)
    (hlen : new_map.length = reg.num_qubits) (hc1 : cand.I1 reg.num_qubits)
    (hres : new_inverse_map new_map style_of_map = some cand.imap)
    (hof : Permutation.ofMap cand.imap "inverse" = some cand) :
    PermuteLocal env reg new_map style_of_map =
      .done { reg with
        state := remapLocal reg.permutation cand reg.state
        permutation := cand } := by
  have hguard : localGuard reg.permutation.imap cand.imap (localBits env reg)
      reg.num_qubits = true := by
    rw [localBits_one env reg hP, localGuard_iff _ _ _ _
      (fun pos hp => by rw [hc1.2.1]; exact (I1.right_inv hI1 pos hp).1)]
    refine ⟨fun pos hp => ?_, fun pos h1 h2 => by omega⟩
    exact (I1.isBij_imap hc1).surj _ (I1.right_inv hI1 pos hp).1
  rw [PermuteLocal_of_guard env reg new_map style_of_map cand hlen hres hof, hguard,
    if_pos rfl]

/-- The gathered state, read by rank and offset. -/
theorem allgather_getElem? {α : Type} (regs : List (QubitRegister α)) (L : Nat)
    (h : ∀ reg ∈ regs, reg.state.length = L) (r o : Nat) (hr : r < regs.length)
    (ho : o < L) :
    (gathered regs)[r * L + o]? = (regs.get ⟨r, hr⟩).state[o]? := by
  unfold gathered
  rw [flatten_uniform_getElem? _ L _ r o ho, List.getElem?_map, List.getElem?_eq_getElem hr]
  · rfl
  · intro l hl
    obtain ⟨g, hg, rfl⟩ := List.mem_map.mp hl
    exact h g hg

theorem allgather_length {α : Type} (regs : List (QubitRegister α)) (n k : Nat)
    (hkn : k ≤ n) (hP : regs.length = 2 ^ k)
    (h : ∀ reg ∈ regs, reg.state.length = 2 ^ (n - k)) :
    (gathered regs).length = 2 ^ n := by
  unfold gathered
  rw [flatten_uniform_length _ (2 ^ (n - k)), List.length_map, hP, Nat.mul_comm,
    two_pow_split hkn]
  intro l hl
  obtain ⟨g, hg, rfl⟩ := List.mem_map.mp hl
  exact h g hg

/-- What every rank holds after all `P = 2^k` processes called `Permute` with the same
bijective candidate (for `P = 1` through `PermuteLocal`, for `P > 1` through the scan). -/
theorem PermuteAll_spec {α : Type} [Zero α] (has_mpi : Bool) (elem_type : ElementType)
    (regs : List (QubitRegister α)) (new_map : List Nat) (style_of_map : String)
    (n k : Nat) (old : Permutation)
    (hkn : k ≤ n) (hP : regs.length = 2 ^ k) (hmpi : 1 ≤ k → has_mpi = true)
    (hT : 1 ≤ k → elem_type = .ComplexDP)
    (hregs : ∀ reg ∈ regs,
      reg.num_qubits = n ∧ reg.permutation = old ∧ reg.state.length = 2 ^ (n - k))
    (hI1 : old.I1 n) (hcand : IsBij n new_map)
    (hstyle : style_of_map = "direct" ∨ style_of_map = "inverse") :
    ∃ cand, Permutation.ofMap new_map style_of_map = some cand ∧ cand.I1 n ∧
      ∀ r, r < 2 ^ k → ∃ reg',
        (PermuteAll has_mpi elem_type regs new_map style_of_map)[r]? = some (.done reg') ∧
        reg'.permutation = cand ∧ reg'.num_qubits = n ∧ reg'.state.length = 2 ^ (n - k) ∧
        ∀ i, i < 2 ^ n → remap old cand i / 2 ^ (n - k) = r →
          reg'.state[remap old cand i % 2 ^ (n - k)]? =
            (gathered regs)[i]? := by
  obtain ⟨cand, hof, hc1, hres, hof'⟩ := candidate_resolve hcand hstyle
  refine ⟨cand, hof, hc1, fun r hr => ?_⟩
  have hLpos : 0 < 2 ^ (n - k) := Nat.two_pow_pos (n - k)
  have hsplit := two_pow_split hkn
  have hG := allgather_length regs n k hkn hP (fun g hg => (hregs g hg).2.2)
  have hrl : r < regs.length := by rw [hP]; exact hr
  obtain ⟨hnq, hperm, hlen⟩ := hregs _ (List.getElem_mem hrl)
  have hget : (PermuteAll has_mpi elem_type regs new_map style_of_map)[r]? =
      some (Permute (rankEnv regs.length r has_mpi elem_type)
        (regs.map (fun g => g.state)) regs[r] new_map style_of_map) := by
    unfold PermuteAll
    rw [List.getElem?_mapIdx, List.getElem?_eq_getElem hrl, Option.map_some']
  by_cases hk : k = 0
  · subst hk
    have hr0 : r = 0 := by simpa using hr
    subst hr0
    have hrun : Permute (rankEnv regs.length 0 has_mpi elem_type)
        (regs.map (fun g => g.state)) regs[0] new_map style_of_map =
        .done { regs[0] with
          state := remapLocal (regs[0]).permutation cand (regs[0]).state
          permutation := cand } := by
      unfold Permute
      rw [if_neg (by rw [hcand.1, hnq]; simp), if_pos (by simpa using hP)]
      exact PermuteLocal_single _ _ _ _ cand (by simpa using hP) (by rw [hperm, hnq]; exact hI1)
        (by rw [hcand.1, hnq]) (by rw [hnq]; exact hc1) hres hof'
    rw [hrun] at hget
    rw [Nat.sub_zero] at hlen hLpos ⊢
    have hspec := remapLocal_spec (regs[0]).permutation cand (regs[0]).state
      (fun i _ => by rw [hlen]; exact remap_lt hc1 i)
      (fun i hi j hj h => remap_inj (by rw [hperm]; exact hI1) hc1 i (by rwa [hlen] at hi) j
        (by rwa [hlen] at hj) h)
    refine ⟨_, hget, rfl, hnq, by rw [← hlen]; exact hspec.1, fun i hi _ => ?_⟩
    have hag := allgather_getElem? regs (2 ^ n) (fun g hg => by
      have := (hregs g hg).2.2; rwa [Nat.sub_zero] at this) 0 i hrl hi
    rw [Nat.zero_mul, Nat.zero_add] at hag
    rw [hag, Nat.mod_eq_of_lt (remap_lt hc1 i), ← hperm]
    exact hspec.2 i (by rwa [hlen])
  · have hk1 : 1 ≤ k := by omega
    have hne1 : regs.length ≠ 1 := by
      rw [hP]
      have : 2 ^ 1 ≤ 2 ^ k := Nat.pow_le_pow_right (by decide) hk1
      omega
    have hrun := Permute_multi (rankEnv regs.length r has_mpi elem_type)
      (regs.map (fun g => g.state)) regs[r] new_map style_of_map cand
      (by rw [hcand.1, hnq]) hne1 (hmpi hk1) (hT hk1) hof (by rw [hlen]; exact hLpos)
    have hGS : (regs[r]).GlobalSize
        (rankEnv regs.length r has_mpi elem_type) = 2 ^ n := by
      show (regs[r]).state.length * regs.length = 2 ^ n
      rw [hlen, hP, hsplit]
    rw [hGS, hperm] at hrun
    have hspec := scan_state_spec old cand n k r hI1 hc1
      (gathered regs) (regs[r]).state hlen hG
    rw [hrun] at hget
    exact ⟨_, hget, rfl, hnq, hspec.1, hspec.2⟩

/-- All ranks complete; the new registers, with the gathered new state described through the
gathered old state. -/
theorem PermuteAll_done {α : Type} [Zero α] (has_mpi : Bool) (elem_type : ElementType)
    (regs : List (QubitRegister α)) (new_map : List Nat) (style_of_map : String)
    (n k : Nat) (old : Permutation)
    (hkn : k ≤ n) (hP : regs.length = 2 ^ k) (hmpi : 1 ≤ k → has_mpi = true)
    (hT : 1 ≤ k → elem_type = .ComplexDP)
    (hregs : ∀ reg ∈ regs,
      reg.num_qubits = n ∧ reg.permutation = old ∧ reg.state.length = 2 ^ (n - k))
    (hI1 : old.I1 n) (hcand : IsBij n new_map)
    (hstyle : style_of_map = "direct" ∨ style_of_map = "inverse") :
    ∃ (cand : Permutation) (regs' : List (QubitRegister α)),
      Permutation.ofMap new_map style_of_map = some cand ∧ cand.I1 n ∧
      PermuteAll has_mpi elem_type regs new_map style_of_map = regs'.map Outcome.done ∧
      regs'.length = 2 ^ k ∧
      (∀ reg ∈ regs',
        reg.num_qubits = n ∧ reg.permutation = cand ∧ reg.state.length = 2 ^ (n - k)) ∧
      ∀ i, i < 2 ^ n →
        (gathered regs')[remap old cand i]? =
          (gathered regs)[i]? := by
  obtain ⟨cand, hof, hc1, hall⟩ := PermuteAll_spec has_mpi elem_type regs new_map style_of_map n k old
    hkn hP hmpi hT hregs hI1 hcand hstyle
  have hlenP : (PermuteAll has_mpi elem_type regs new_map style_of_map).length = 2 ^ k := by
    unfold PermuteAll; rw [List.length_mapIdx, hP]
  have hlen' : ((PermuteAll has_mpi elem_type regs new_map style_of_map).map
      Outcome.regD).length = 2 ^ k := by rw [List.length_map, hlenP]
  have hget : ∀ r, r < 2 ^ k → ∃ reg',
      ((PermuteAll has_mpi elem_type regs new_map style_of_map).map Outcome.regD)[r]? = some reg' ∧
      (PermuteAll has_mpi elem_type regs new_map style_of_map)[r]? = some (.done reg') ∧
      reg'.permutation = cand ∧ reg'.num_qubits = n ∧ reg'.state.length = 2 ^ (n - k) ∧
      ∀ i, i < 2 ^ n → remap old cand i / 2 ^ (n - k) = r →
        reg'.state[remap old cand i % 2 ^ (n - k)]? =
          (gathered regs)[i]? := by
    intro r hr
    obtain ⟨reg', h1, h2⟩ := hall r hr
    refine ⟨reg', ?_, h1, h2⟩
    rw [List.getElem?_map, h1]; rfl
  have hmem : ∀ reg ∈ (PermuteAll has_mpi elem_type regs new_map style_of_map).map Outcome.regD,
      reg.num_qubits = n ∧ reg.permutation = cand ∧ reg.state.length = 2 ^ (n - k) := by
    intro reg hreg
    obtain ⟨r, hr, rfl⟩ := List.getElem_of_mem hreg
    obtain ⟨reg', g1, -, g2, g3, g4, -⟩ := hget r (by rw [← hlen']; exact hr)
    rw [List.getElem?_eq_getElem hr] at g1
    rw [Option.some.inj g1]
    exact ⟨g3, g2, g4⟩
  refine ⟨cand, (PermuteAll has_mpi elem_type regs new_map style_of_map).map Outcome.regD, hof, hc1,
    ?_, hlen', hmem, ?_⟩
  · apply List.ext_getElem?
    intro r
    by_cases hr : r < 2 ^ k
    · obtain ⟨reg', g1, g2, -⟩ := hget r hr
      rw [List.getElem?_map, g1, g2]; rfl
    · rw [List.getElem?_eq_none (by rw [hlenP]; omega),
        List.getElem?_eq_none (by rw [List.length_map, hlen']; omega)]
  · intro i hi
    have hLpos : 0 < 2 ^ (n - k) := Nat.two_pow_pos (n - k)
    have hrk : remap old cand i / 2 ^ (n - k) < 2 ^ k := by
      apply Nat.div_lt_of_lt_mul
      rw [two_pow_split hkn]; exact remap_lt hc1 i
    obtain ⟨reg', g1, -, -, -, -, g5⟩ := hget _ hrk
    have hag := allgather_getElem? _ (2 ^ (n - k)) (fun g hg => (hmem g hg).2.2)
      (remap old cand i / 2 ^ (n - k)) (remap old cand i % 2 ^ (n - k))
      (by rw [hlen']; exact hrk) (Nat.mod_lt _ hLpos)
    rw [Nat.mul_comm, Nat.div_add_mod] at hag
    rw [hag, ← g5 i hi rfl]
    have hr' : remap old cand i / 2 ^ (n - k) <
        ((PermuteAll has_mpi elem_type regs new_map style_of_map).map Outcome.regD).length := by
      rw [hlen']; exact hrk
    rw [List.getElem?_eq_getElem hr'] at g1
    rw [← Option.some.inj g1]
    rfl

theorem reg_ext {α : Type} (a b : QubitRegister α) (h1 : a.num_qubits = b.num_qubits)
    (h2 : a.permutation = b.permutation) (h3 : a.state = b.state) : a = b := by
  cases a; cases b; simp_all

/-- Two families of registers with the same shape and the same gathered state are equal. -/
theorem regs_eq_of_allgather {α : Type} (regs regs' : List (QubitRegister α)) (n k : Nat)
    (old : Permutation) (hkn : k ≤ n) (hP : regs.length = 2 ^ k) (hP' : regs'.length = 2 ^ k)
    (hregs : ∀ reg ∈ regs,
      reg.num_qubits = n ∧ reg.permutation = old ∧ reg.state.length = 2 ^ (n - k))
    (hregs' : ∀ reg ∈ regs',
      reg.num_qubits = n ∧ reg.permutation = old ∧ reg.state.length = 2 ^ (n - k))
    (hG : ∀ t, t < 2 ^ n → (gathered regs')[t]? =
      (gathered regs)[t]?) : regs' = regs := by
  apply List.ext_getElem (by rw [hP, hP'])
  intro r hr' hr
  obtain ⟨a1, a2, a3⟩ := hregs _ (List.getElem_mem hr)
  obtain ⟨b1, b2, b3⟩ := hregs' _ (List.getElem_mem hr')
  apply reg_ext _ _ (by rw [a1, b1]) (by rw [a2, b2])
  apply List.ext_getElem?
  intro o
  by_cases ho : o < 2 ^ (n - k)
  · have ht : r * 2 ^ (n - k) + o < 2 ^ n := by
      have hr2 : r < 2 ^ k := by rw [← hP]; exact hr
      have : (r + 1) * 2 ^ (n - k) ≤ 2 ^ k * 2 ^ (n - k) := Nat.mul_le_mul_right _ hr2
      rw [Nat.mul_comm (2 ^ k), two_pow_split hkn, Nat.succ_mul] at this
      omega
    have h := hG _ ht
    rw [allgather_getElem? regs' _ (fun g hg => (hregs' g hg).2.2) r o hr' ho,
      allgather_getElem? regs _ (fun g hg => (hregs g hg).2.2) r o hr ho] at h
    exact h
  · rw [List.getElem?_eq_none (by rw [b3]; omega), List.getElem?_eq_none (by rw [a3]; omega)]

/-- The coordinator, unfolded to its three tests (style, pair count, pair kind). -/
theorem SinglePair_eq {α : Type} (env : Environment)
    (ApplySwap : QubitRegister α → Nat → Nat → QubitRegister α)
    (reg : QubitRegister α) (new_map : List Nat) (style_of_map : String) (cand : Permutation)
    (e0 e1 : Nat) (hof : Permutation.ofMap new_map style_of_map = some cand)
    (hex : exchanged_qubits cand reg.permutation reg.num_qubits = [e0, e1]) :
    PermuteByLocalGlobalExchangeOfSinglePair env ApplySwap reg new_map style_of_map =
      if e0 < localBits env reg then
        if ¬ e1 ≥ localBits env reg then .abort reg
        else EmulateSwap (ApplySwap reg e0 e1) e0 e1
      else
        if ¬ e1 < localBits env reg then .abort reg
        else EmulateSwap (ApplySwap reg e1 e0) e1 e0 := by
  unfold PermuteByLocalGlobalExchangeOfSinglePair
  rw [hof]
  dsimp only
  rw [hex, if_neg (by simp)]
  simp only [List.getD_cons_zero, List.getD_cons_succ]

theorem SinglePair_count {α : Type} (env : Environment)
    (ApplySwap : QubitRegister α → Nat → Nat → QubitRegister α)
    (reg : QubitRegister α) (new_map : List Nat) (style_of_map : String) (cand : Permutation)
    (hof : Permutation.ofMap new_map style_of_map = some cand)
    (hlen : (exchanged_qubits cand reg.permutation reg.num_qubits).length ≠ 2) :
    PermuteByLocalGlobalExchangeOfSinglePair env ApplySwap reg new_map style_of_map =
      .abort reg := by
  unfold PermuteByLocalGlobalExchangeOfSinglePair
  rw [hof]
  dsimp only
  rw [if_pos hlen]

theorem exchanged_qubits_mem (cand cur : Permutation) (n j : Nat) :
    j ∈ exchanged_qubits cand cur n ↔ j < n ∧ cand.map.getD j 0 ≠ cur.map.getD j 0 := by
  unfold exchanged_qubits Permutation.get
  rw [List.mem_filter, List.mem_range]
  simp

/-- When exactly the qubits `e0, e1` differ: they are distinct valid qubits, and every other
qubit has the same position in both permutations. -/
theorem exchanged_qubits_pair {cand cur : Permutation} {n e0 e1 : Nat}
    (hex : exchanged_qubits cand cur n = [e0, e1]) :
    e0 < n ∧ e1 < n ∧ e0 ≠ e1 ∧
      cand.map.getD e0 0 ≠ cur.map.getD e0 0 ∧ cand.map.getD e1 0 ≠ cur.map.getD e1 0 ∧
      ∀ j, j < n → j ≠ e0 → j ≠ e1 → cand.map.getD j 0 = cur.map.getD j 0 := by
  have hm := exchanged_qubits_mem cand cur n
  rw [hex] at hm
  have h0 := (hm e0).mp (by simp)
  have h1 := (hm e1).mp (by simp)
  have hnd : (exchanged_qubits cand cur n).Nodup :=
    List.Nodup.filter _ (List.nodup_range n)
  rw [hex] at hnd
  refine ⟨h0.1, h1.1, ?_, h0.2, h1.2, ?_⟩
  · intro h
    rw [h] at hnd
    simp at hnd
  · intro j hj hj0 hj1
    by_contra hne
    have := (hm j).mpr ⟨hj, hne⟩
    simp at this
    rcases this with h | h
    · exact hj0 h
    · exact hj1 h

/-- In a completed or aborted run of the coordinator on a register satisfying I1, with a
collaborator that leaves the permutation alone, an abort can only come from one of the three
tests that precede the collaborator. -/
theorem SinglePair_abort {α : Type} (env : Environment)
    (ApplySwap : QubitRegister α → Nat → Nat → QubitRegister α)
    (reg s : QubitRegister α) (new_map : List Nat) (style_of_map : String)
    (hI1 : reg.permutation.I1 reg.num_qubits)
    (hApply : ∀ r a b, (ApplySwap r a b).permutation = r.permutation ∧
      (ApplySwap r a b).num_qubits = r.num_qubits)
    (h : PermuteByLocalGlobalExchangeOfSinglePair env ApplySwap reg new_map style_of_map
      = .abort s) : s = reg := by
  cases hof : Permutation.ofMap new_map style_of_map with
  | none =>
    unfold PermuteByLocalGlobalExchangeOfSinglePair at h
    rw [hof] at h
    exact (Outcome.abort.inj h).symm
  | some cand =>
    by_cases hlen : (exchanged_qubits cand reg.permutation reg.num_qubits).length = 2
    · obtain ⟨e0, e1, hex⟩ := List.length_eq_two.mp hlen
      obtain ⟨h0, h1, -⟩ := exchanged_qubits_pair hex
      rw [SinglePair_eq env ApplySwap reg new_map style_of_map cand e0 e1 hof hex] at h
      have hsw : ∀ a b, a < reg.num_qubits → b < reg.num_qubits →
          EmulateSwap (ApplySwap reg a b) a b ≠ .abort s := by
        intro a b ha hb hab
        rw [EmulateSwap_of_I1 (ApplySwap reg a b) a b
          (by rw [(hApply reg a b).1, (hApply reg a b).2]; exact hI1)
          (by rw [(hApply reg a b).2]; exact ha) (by rw [(hApply reg a b).2]; exact hb)] at hab
        cases hab
      split at h
      · split at h
        · exact (Outcome.abort.inj h).symm
        · exact absurd h (hsw e0 e1 h0 h1)
      · split at h
        · exact (Outcome.abort.inj h).symm
        · exact absurd h (hsw e1 e0 h1 h0)
    · rw [SinglePair_count env ApplySwap reg new_map style_of_map cand hof hlen] at h
      exact (Outcome.abort.inj h).symm

/-- What the pair-kind test of the coordinator decides: when exactly the logical qubits
`e0, e1` differ, the call completes if and only if one of the two logical indices is below
`M` and the other is not. -/
theorem SinglePair_succeeds_iff {α : Type} (env : Environment)
    (ApplySwap : QubitRegister α → Nat → Nat → QubitRegister α)
    (reg : QubitRegister α) (new_map : List Nat) (style_of_map : String) (cand : Permutation)
    (e0 e1 : Nat) (hI1 : reg.permutation.I1 reg.num_qubits)
    (hApply : ∀ r a b, (ApplySwap r a b).permutation = r.permutation ∧
      (ApplySwap r a b).num_qubits = r.num_qubits)
    (hof : Permutation.ofMap new_map style_of_map = some cand)
    (hex : exchanged_qubits cand reg.permutation reg.num_qubits = [e0, e1]) :
    (PermuteByLocalGlobalExchangeOfSinglePair env ApplySwap reg new_map
        style_of_map).succeeded = true ↔
      (e0 < localBits env reg ∧ localBits env reg ≤ e1) ∨
        (localBits env reg ≤ e0 ∧ e1 < localBits env reg) := by
  obtain ⟨h0, h1, -⟩ := exchanged_qubits_pair hex
  have hsw : ∀ a b, a < reg.num_qubits → b < reg.num_qubits →
      (EmulateSwap (ApplySwap reg a b) a b).succeeded = true := by
    intro a b ha hb
    rw [EmulateSwap_of_I1 (ApplySwap reg a b) a b
      (by rw [(hApply reg a b).1, (hApply reg a b).2]; exact hI1)
      (by rw [(hApply reg a b).2]; exact ha) (by rw [(hApply reg a b).2]; exact hb)]
    rfl
  rw [SinglePair_eq env ApplySwap reg new_map style_of_map cand e0 e1 hof hex]
  by_cases c0 : e0 < localBits env reg
  · rw [if_pos c0]
    by_cases c1 : e1 ≥ localBits env reg
    · rw [if_neg (not_not.mpr c1), hsw e0 e1 h0 h1]
      exact ⟨fun _ => Or.inl ⟨c0, c1⟩, fun _ => rfl⟩
    · rw [if_pos c1]
      constructor
      · intro h; cases h
      · rintro (⟨-, h⟩ | ⟨h, -⟩) <;> omega
  · rw [if_neg c0]
    by_cases c1 : e1 < localBits env reg
    · rw [if_neg (not_not.mpr c1), hsw e1 e0 h1 h0]
      exact ⟨fun _ => Or.inr ⟨by omega, c1⟩, fun _ => rfl⟩
    · rw [if_pos c1]
      constructor
      · intro h; cases h
      · rintro (⟨h, -⟩ | ⟨-, h⟩) <;> omega

/-- Exchanging the positions of the only two qubits on which a permutation `cand` differs from
`old` turns `old` into `cand`. -/
theorem exchange_eq_cand {old cand : Permutation} {n a b : Nat} (ho : old.I1 n)
    (hc : cand.I1 n) (ha : a < n) (hb : b < n) (hab : a ≠ b)
    (hda : cand.map.getD a 0 ≠ old.map.getD a 0)
    (hdb : cand.map.getD b 0 ≠ old.map.getD b 0)
    (hsame : ∀ j, j < n → j ≠ a → j ≠ b → cand.map.getD j 0 = old.map.getD j 0) :
    old.ExchangeTwoElements (old.map.getD a 0) (old.map.getD b 0) = cand := by
  have hinjc := (I1.isBij_map hc).2.2
  have hcross : ∀ x y, x < n → y < n → x ≠ y →
      cand.map.getD x 0 ≠ old.map.getD x 0 →
      (∀ j, j < n → j ≠ x → j ≠ y → cand.map.getD j 0 = old.map.getD j 0) →
      cand.map.getD x 0 = old.map.getD y 0 := by
    intro x y hx hy hxy hdx hs
    obtain ⟨hq, he⟩ := I1.right_inv ho (cand.map.getD x 0) (hc.2.2 x hx).1
    by_cases h1 : old.imap.getD (cand.map.getD x 0) 0 = x
    · rw [h1] at he; exact absurd he.symm hdx
    · by_cases h2 : old.imap.getD (cand.map.getD x 0) 0 = y
      · rw [h2] at he; exact he.symm
      · exfalso
        have := hs _ hq h1 h2
        rw [he] at this
        exact h1 (hinjc _ hq x hx this)
  have hswI1 := ExchangeTwoElements_I1 ho a b ha hb
  have hmap : (old.ExchangeTwoElements (old.map.getD a 0) (old.map.getD b 0)).map =
      cand.map := by
    apply list_ext_getD hswI1.1 hc.1
    intro q hq
    rw [ExchangeTwoElements_map ho a b ha hb]
    by_cases h2 : q = b
    · subst h2
      rw [if_pos rfl]
      exact (hcross q a hq ha (Ne.symm hab) hdb
        (fun j hj h1 h2 => hsame j hj h2 h1)).symm
    · rw [if_neg h2]
      by_cases h1 : q = a
      · subst h1
        rw [if_pos rfl]
        exact (hcross q b hq hb hab hda hsame).symm
      · rw [if_neg h1]
        exact (hsame q hq h1 h2).symm
  have himap : (old.ExchangeTwoElements (old.map.getD a 0) (old.map.getD b 0)).imap =
      cand.imap := by
    rw [I1.imap_eq hswI1, I1.imap_eq hc, hmap]
  cases hsw : old.ExchangeTwoElements (old.map.getD a 0) (old.map.getD b 0) with
  | mk m im =>
    rw [hsw] at hmap himap
    cases cand
    simp only at hmap himap
    rw [hmap, himap]

/-! ## The two readings of "the local qubits are the same" -/

/-- For two bijective arrays, if every entry among the first `M` of `a` occurs among the first
`M` of `b`, then every entry among the first `M` of `b` occurs among the first `M` of `a`. -/
theorem initial_image_swap {n M : Nat} {a b : List Nat} (ha : IsBij n a) (hb : IsBij n b)
    (hM : M ≤ n)
    (h : ∀ pos, pos < M → ∃ pos', pos' < M ∧ b.getD pos' 0 = a.getD pos 0) :
    ∀ pos, pos < M → ∃ pos', pos' < M ∧ a.getD pos' 0 = b.getD pos 0 := by
  have hsub : (Finset.range M).image (fun i => a.getD i 0) ⊆
      (Finset.range M).image (fun i => b.getD i 0) := by
    intro x hx
    rw [Finset.mem_image] at hx ⊢
    obtain ⟨i, hi, rfl⟩ := hx
    obtain ⟨j, hj, he⟩ := h i (Finset.mem_range.mp hi)
    exact ⟨j, Finset.mem_range.mpr hj, he⟩
  have hca : ((Finset.range M).image (fun i => a.getD i 0)).card = M := by
    rw [Finset.card_image_of_injOn, Finset.card_range]
    intro x hx y hy hxy
    exact ha.2.2 x (by have := Finset.mem_range.mp hx; omega) y
      (by have := Finset.mem_range.mp hy; omega) hxy
  have hcb : ((Finset.range M).image (fun i => b.getD i 0)).card = M := by
    rw [Finset.card_image_of_injOn, Finset.card_range]
    intro x hx y hy hxy
    exact hb.2.2 x (by have := Finset.mem_range.mp hx; omega) y
      (by have := Finset.mem_range.mp hy; omega) hxy
  have heq := Finset.eq_of_subset_of_card_le hsub (by rw [hca, hcb])
  intro pos hpos
  have hmem : b.getD pos 0 ∈ (Finset.range M).image (fun i => a.getD i 0) := by
    rw [heq, Finset.mem_image]
    exact ⟨pos, Finset.mem_range.mpr hpos, rfl⟩
  rw [Finset.mem_image] at hmem
  obtain ⟨i, hi, he⟩ := hmem
  exact ⟨i, Finset.mem_range.mp hi, he⟩

/-- Marking loop over an arbitrary list of positions. -/
theorem foldl_set_true_getD (ps : List Nat) (d : Nat → Nat) (init : List Bool) (j : Nat)
    (hj : j < init.length) :
    (ps.foldl (fun g pos => g.set (d pos) true) init).getD j false = true ↔
      init.getD j false = true ∨ ∃ pos, pos ∈ ps ∧ d pos = j := by
  induction ps generalizing init with
  | nil => simp
  | cons p ps ih =>
    rw [List.foldl_cons, ih _ (by rw [List.length_set]; exact hj)]
    have hset : (init.set (d p) true).getD j false = true ↔
        init.getD j false = true ∨ d p = j := by
      rw [List.getD_eq_getElem?_getD, List.getD_eq_getElem?_getD, List.getElem?_set]
      by_cases hp : d p = j
      · subst hp; simp [hj]
      · simp [hp]
    rw [hset]
    constructor
    · rintro ((h | h) | ⟨pos, hpos, h⟩)
      · exact Or.inl h
      · exact Or.inr ⟨p, List.mem_cons_self _ _, h⟩
      · exact Or.inr ⟨pos, List.mem_cons_of_mem _ hpos, h⟩
    · rintro (h | ⟨pos, hpos, h⟩)
      · exact Or.inl (Or.inl h)
      · rcases List.mem_cons.mp hpos with rfl | hpos
        · exact Or.inl (Or.inr h)
        · exact Or.inr ⟨pos, hpos, h⟩

theorem globalMarks_getD (new_inv : List Nat) (M n q : Nat) (hq : q < new_inv.length) :
    (globalMarks new_inv M n).getD q false = true ↔
      ∃ pos, M ≤ pos ∧ pos < n ∧ new_inv.getD pos 0 = q := by
  unfold globalMarks
  rw [foldl_set_true_getD _ _ _ _ (by rw [List.length_replicate]; exact hq)]
  have h0 : (List.replicate new_inv.length false).getD q false = false := by
    rw [List.getD_eq_getElem _ _ (by rw [List.length_replicate]; exact hq)]
    exact List.getElem_replicate _ _
  rw [h0]
  constructor
  · rintro (h | ⟨pos, hpos, h⟩)
    · cases h
    · have := List.mem_range'_1.mp hpos
      exact ⟨pos, this.1, by omega, h⟩
  · rintro ⟨pos, h1, h2, h⟩
    exact Or.inr ⟨pos, List.mem_range'_1.mpr ⟨h1, by omega⟩, h⟩

/-- The four loops of lines 176-187 accept exactly when the new inverse map equals the old one
at every position (for a new inverse map with entries in range). -/
theorem globalGuard_iff (old_inv new_inv : List Nat) (M n : Nat) (hM : M ≤ n)
    (hnew : ∀ pos, pos < n → new_inv.getD pos 0 < new_inv.length) :
    globalGuard old_inv new_inv M n = true ↔
      ∀ pos, pos < n → new_inv.getD pos 0 = old_inv.getD pos 0 := by
  unfold globalGuard
  rw [Bool.and_eq_true, Bool.and_eq_true, List.all_eq_true, List.all_eq_true,
    List.all_eq_true]
  constructor
  · rintro ⟨⟨-, h2⟩, h3⟩ pos hpos
    by_cases hp : pos < M
    · exact (beq_iff_eq.mp (h2 pos (List.mem_range.mpr hp))).symm
    · exact (beq_iff_eq.mp (h3 pos (List.mem_range'_1.mpr ⟨by omega, by omega⟩))).symm
  · intro h
    refine ⟨⟨fun pos hpos => ?_, fun pos hpos => ?_⟩, fun pos hpos => ?_⟩
    · have hp := List.mem_range'_1.mp hpos
      have hlt : pos < n := by omega
      rw [← h pos hlt, globalMarks_getD _ _ _ _ (hnew pos hlt)]
      exact ⟨pos, hp.1, hlt, rfl⟩
    · exact beq_iff_eq.mpr (h pos (by have := List.mem_range.mp hpos; omega)).symm
    · have hp := List.mem_range'_1.mp hpos
      exact beq_iff_eq.mpr (h pos (by omega)).symm

theorem PermuteGlobal_of_guard {α : Type} (env : Environment) (reg : QubitRegister α)
    (new_map : List Nat) (style_of_map : String) (new_inv : List Nat)
    (hlen : new_map.length = reg.num_qubits)
    (hres : new_inverse_map new_map style_of_map = some new_inv) :
    PermuteGlobal env reg new_map style_of_map =
      if globalGuard reg.permutation.imap new_inv (localBits env reg) reg.num_qubits then
        .done reg
      else .abort reg := by
  unfold PermuteGlobal
  rw [if_neg (by simpa using hlen), hres]
  dsimp only
  cases globalGuard reg.permutation.imap new_inv (localBits env reg) reg.num_qubits <;> rfl

theorem PermuteGlobal_reg {α : Type} (env : Environment) (reg : QubitRegister α)
    (new_map : List Nat) (style_of_map : String) :
    (PermuteGlobal env reg new_map style_of_map).reg = some reg := by
  unfold PermuteGlobal
  split
  · rfl
  · split
    · rfl
    · split <;> rfl

/-- A permutation is determined by its two arrays. -/
theorem permutation_ext (p q : Permutation) (h1 : p.map = q.map) (h2 : p.imap = q.imap) :
    p = q := by
  cases p; cases q; simp_all

/-- Exchanging the positions of the same two qubits a second time gives the permutation back. -/
theorem ExchangeTwoElements_twice {p : Permutation} {n : Nat} (h : p.I1 n) (a b : Nat)
    (ha : a < n) (hb : b < n) :
    (p.ExchangeTwoElements (p.map.getD a 0) (p.map.getD b 0)).ExchangeTwoElements
      ((p.ExchangeTwoElements (p.map.getD a 0) (p.map.getD b 0)).map.getD a 0)
      ((p.ExchangeTwoElements (p.map.getD a 0) (p.map.getD b 0)).map.getD b 0) = p := by
  have h1 := ExchangeTwoElements_I1 h a b ha hb
  have h2 := ExchangeTwoElements_I1 h1 a b ha hb
  have hmap : ((p.ExchangeTwoElements (p.map.getD a 0) (p.map.getD b 0)).ExchangeTwoElements
      ((p.ExchangeTwoElements (p.map.getD a 0) (p.map.getD b 0)).map.getD a 0)
      ((p.ExchangeTwoElements (p.map.getD a 0) (p.map.getD b 0)).map.getD b 0)).map
      = p.map := by
    apply list_ext_getD h2.1 h.1
    intro q _
    rw [ExchangeTwoElements_map h1 a b ha hb q, ExchangeTwoElements_map h a b ha hb a,
      ExchangeTwoElements_map h a b ha hb b, ExchangeTwoElements_map h a b ha hb q]
    by_cases hqb : q = b
    · subst hqb
      rw [if_pos rfl]
      by_cases hab : a = q
      · subst hab; rw [if_pos rfl]
      · rw [if_neg hab, if_pos rfl]
    · rw [if_neg hqb, if_pos rfl]
      by_cases hqa : q = a
      · subst hqa; rw [if_pos rfl]
      · rw [if_neg hqa, if_neg hqb, if_neg hqa]
  apply permutation_ext _ _ hmap
  rw [I1.imap_eq h2, I1.imap_eq h, hmap]

/-- The inverse array of a bijective array is the only array of the same length that sends
every entry back to its index. -/
theorem eq_invert_of_left_inverse {n : Nat} {m minv : List Nat} (hm : IsBij n m)
    (hlen : minv.length = n) (hinv : ∀ q, q < n → minv.getD (m.getD q 0) 0 = q) :
    minv = invert m := by
  apply list_ext_getD hlen (by rw [invert_length, hm.1])
  intro j hj
  obtain ⟨i, hi, rfl⟩ := hm.surj j hj
  rw [hinv i hi, invert_getD hm i hi]

theorem PermuteLocal_abort {α : Type} [Zero α] (env : Environment) (reg s : QubitRegister α)
    (new_map : List Nat) (style_of_map : String)
    (h : PermuteLocal env reg new_map style_of_map = .abort s) : s = reg := by
  unfold PermuteLocal at h
  split at h
  · exact (Outcome.abort.inj h).symm
  · split at h
    · exact (Outcome.abort.inj h).symm
    · split at h
      · exact (Outcome.abort.inj h).symm
      · split at h
        · exact (Outcome.abort.inj h).symm
        · cases h

theorem PermuteLocal_defined {α : Type} [Zero α] (env : Environment)
    (reg : QubitRegister α) (new_map : List Nat) (style_of_map : String) :
    PermuteLocal env reg new_map style_of_map ≠ .undefined := by
  unfold PermuteLocal
  split
  · intro h; cases h
  · split
    · intro h; cases h
    · split
      · intro h; cases h
      · split
        · intro h; cases h
        · intro h; cases h

theorem PermuteLocal_bad_length {α : Type} [Zero α] (env : Environment)
    (reg : QubitRegister α) (new_map : List Nat) (style_of_map : String)
    (h : new_map.length ≠ reg.num_qubits) :
    PermuteLocal env reg new_map style_of_map = .abort reg := by
  unfold PermuteLocal
  rw [if_pos h]

/-- Index maps compose: going from `p0` to `p1` and then from `p1` to `p2` is going from `p0`
to `p2`. -/
theorem remap_comp {p0 p1 p2 : Permutation} {n : Nat} (h0 : p0.I1 n) (h1 : p1.I1 n)
    (h2 : p2.I1 n) (i : Nat) : remap p1 p2 (remap p0 p1 i) = remap p0 p2 i := by
  apply Nat.eq_of_testBit_eq
  intro j
  by_cases hj : j < n
  · obtain ⟨hq, he⟩ := I1.right_inv h2 j hj
    rw [← he, testBit_remap h1 h2 _ _ hq, testBit_remap h0 h1 _ _ hq,
      testBit_remap h0 h2 _ _ hq]
  · rw [testBit_remap_ge h2 _ j (by omega), testBit_remap_ge h2 _ j (by omega)]

/-- Permuting to `m1` and then to `m2` leaves every rank with the register that permuting to
`m2` directly gives. -/
theorem PermuteAll_path_independent {α : Type} [Zero α] (has_mpi : Bool) (elem_type : ElementType)
    (regs : List (QubitRegister α)) (m1 : List Nat) (s1 : String) (m2 : List Nat)
    (s2 : String) (n k : Nat) (old : Permutation)
    (hkn : k ≤ n) (hP : regs.length = 2 ^ k) (hmpi : 1 ≤ k → has_mpi = true)
    (hT : 1 ≤ k → elem_type = .ComplexDP)
    (hregs : ∀ reg ∈ regs,
      reg.num_qubits = n ∧ reg.permutation = old ∧ reg.state.length = 2 ^ (n - k))
    (hI1 : old.I1 n) (hm1 : IsBij n m1) (hm2 : IsBij n m2)
    (hs1 : s1 = "direct" ∨ s1 = "inverse") (hs2 : s2 = "direct" ∨ s2 = "inverse") :
    ∃ regs1 regs2 : List (QubitRegister α),
      PermuteAll has_mpi elem_type regs m1 s1 = regs1.map Outcome.done ∧
      PermuteAll has_mpi elem_type regs1 m2 s2 = regs2.map Outcome.done ∧
      PermuteAll has_mpi elem_type regs m2 s2 = regs2.map Outcome.done := by
  obtain ⟨c1, regs1, -, hc1, hrun1, hlen1, hregs1, hG1⟩ :=
    PermuteAll_done has_mpi elem_type regs m1 s1 n k old hkn hP hmpi hT hregs hI1 hm1 hs1
  obtain ⟨c2, regs12, hof12, hc2, hrun12, hlen12, hregs12, hG12⟩ :=
    PermuteAll_done has_mpi elem_type regs1 m2 s2 n k c1 hkn hlen1 hmpi hT hregs1 hc1 hm2 hs2
  obtain ⟨c2', regs2, hof2, -, hrun2, hlen2, hregs2, hG2⟩ :=
    PermuteAll_done has_mpi elem_type regs m2 s2 n k old hkn hP hmpi hT hregs hI1 hm2 hs2
  rw [hof12] at hof2
  have hc : c2' = c2 := (Option.some.inj hof2).symm
  subst hc
  refine ⟨regs1, regs2, hrun1, ?_, hrun2⟩
  rw [hrun12]
  congr 1
  apply regs_eq_of_allgather regs2 regs12 n k c2' hkn hlen2 hlen12 hregs2 hregs12
  intro t ht
  have hback := remap_remap hc2 hI1 t ht
  have hi : remap c2' old t < 2 ^ n := remap_lt hI1 t
  rw [← hback, hG2 _ hi, ← remap_comp hI1 hc1 hc2 (remap c2' old t),
    hG12 _ (remap_lt hc1 _), hG1 _ hi]

/-! ## Arrays that pass the local guard -/

/-- On `[0, n)`, a map into `[0, n)` that reaches every value is injective. -/
theorem inj_of_surj_lt (n : Nat) (f : Nat → Nat) (hlt : ∀ i, i < n → f i < n)
    (hsurj : ∀ j, j < n → ∃ i, i < n ∧ f i = j) :
    ∀ i, i < n → ∀ j, j < n → f i = f j → i = j := by
  have himg : (Finset.range n).image f = Finset.range n := by
    apply Finset.Subset.antisymm
    · intro x hx
      rw [Finset.mem_image] at hx
      obtain ⟨i, hi, rfl⟩ := hx
      exact Finset.mem_range.mpr (hlt i (Finset.mem_range.mp hi))
    · intro j hj
      obtain ⟨i, hi, he⟩ := hsurj j (Finset.mem_range.mp hj)
      exact Finset.mem_image.mpr ⟨i, Finset.mem_range.mpr hi, he⟩
  have hinj : Set.InjOn f (Finset.range n) :=
    Finset.injOn_of_card_image_eq (by rw [himg])
  intro i hi j hj h
  exact hinj (Finset.mem_coe.mpr (Finset.mem_range.mpr hi))
    (Finset.mem_coe.mpr (Finset.mem_range.mpr hj)) h

theorem IsBij.isCandidate {n : Nat} {m : List Nat} (h : IsBij n m) : IsCandidate n m := by
  refine ⟨h.1, ?_, ?_⟩
  · intro x hx
    obtain ⟨i, hi, rfl⟩ := List.getElem_of_mem hx
    have := h.2.1 i (by rw [← h.1]; exact hi)
    rwa [List.getD_eq_getElem m 0 hi] at this
  · rw [List.nodup_iff_injective_getElem]
    intro a b hab
    have ha : a.val < n := by rw [← h.1]; exact a.isLt
    have hb : b.val < n := by rw [← h.1]; exact b.isLt
    apply Fin.ext
    apply h.2.2 a.val ha b.val hb
    rw [List.getD_eq_getElem m 0 a.isLt, List.getD_eq_getElem m 0 b.isLt]
    exact hab

/-- An array with entries in range that passes the three validation loops against a bijective
old inverse map is itself bijective. -/
theorem isBij_of_localGuard {n M : Nat} {old_inv new_inv : List Nat} (hM : M ≤ n)
    (hold : IsBij n old_inv) (hlen : new_inv.length = n) (hrange : ∀ x ∈ new_inv, x < n)
    (hg : localGuard old_inv new_inv M n = true) : IsBij n new_inv := by
  have hlt : ∀ i, i < n → new_inv.getD i 0 < n := by
    intro i hi
    have hi' : i < new_inv.length := by omega
    rw [List.getD_eq_getElem new_inv 0 hi']
    exact hrange _ (List.getElem_mem hi')
  obtain ⟨h1, h2⟩ := (localGuard_iff old_inv new_inv M n
    (fun pos hp => by rw [hlen]; exact hold.2.1 pos (by omega))).mp hg
  refine ⟨hlen, hlt, inj_of_surj_lt n (fun i => new_inv.getD i 0) hlt ?_⟩
  intro j hj
  obtain ⟨i, hi, he⟩ := hold.surj j hj
  by_cases hiM : i < M
  · obtain ⟨pos', hp', hc⟩ := h1 i hiM
    exact ⟨pos', by omega, hc.trans he⟩
  · exact ⟨i, hi, (h2 i (by omega) hi).symm.trans he⟩

theorem PermuteLocal_inverse {α : Type} [Zero α] (env : Environment) (reg : QubitRegister α)
    (cand : List Nat) (hlen : cand.length = reg.num_qubits) :
    PermuteLocal env reg cand "inverse" =
      if localGuard reg.permutation.imap cand (localBits env reg) reg.num_qubits then
        .done { reg with
          state := remapLocal reg.permutation { map := invert cand, imap := cand } reg.state
          permutation := { map := invert cand, imap := cand } }
      else .abort reg :=
  PermuteLocal_of_guard env reg cand "inverse" { map := invert cand, imap := cand } hlen rfl rfl

/-! ## Split-preserving candidates on several ranks -/

/-- A qubit at a new local position was at an old local position, when the global positions
hold the same qubits before and after. -/
theorem old_position_local {po pn : Permutation} {n M : Nat} (ho : po.I1 n) (hn : pn.I1 n)
    (hglob : ∀ pos, M ≤ pos → pos < n → po.imap.getD pos 0 = pn.imap.getD pos 0)
    (j : Nat) (hj : j < n) (hjM : j < M) : po.map.getD (pn.imap.getD j 0) 0 < M := by
  obtain ⟨hq, he⟩ := I1.right_inv hn j hj
  by_contra hge
  have hp := (ho.2.2 _ hq)
  have h1 := hglob _ (Nat.le_of_not_lt hge) hp.1
  rw [hp.2] at h1
  have h2 := (I1.right_inv hn _ hp.1).2
  rw [← h1, he] at h2
  omega

/-- Under a split-preserving change the index map acts inside every block of `2^M`
consecutive indices: the block number is kept and the offset is remapped. -/
theorem remap_block {po pn : Permutation} {n k : Nat} (hk : k ≤ n) (ho : po.I1 n)
    (hn : pn.I1 n)
    (hglob : ∀ pos, n - k ≤ pos → pos < n → po.imap.getD pos 0 = pn.imap.getD pos 0)
    (r o : Nat) (hr : r < 2 ^ k) (ho' : o < 2 ^ (n - k)) :
    remap po pn (2 ^ (n - k) * r + o) = 2 ^ (n - k) * r + remap po pn o := by
  have hlo := remap_lt_local ho hn hglob o ho'
  apply Nat.eq_of_testBit_eq
  intro j
  rw [Nat.testBit_mul_pow_two_add r hlo j]
  by_cases hj : j < n
  · obtain ⟨hq, he⟩ := I1.right_inv hn j hj
    by_cases hjM : j < n - k
    · rw [if_pos hjM]
      have hp := old_position_local ho hn hglob j hj hjM
      rw [← he, testBit_remap ho hn _ _ hq, testBit_remap ho hn _ _ hq,
        Nat.testBit_mul_pow_two_add r ho' _, if_pos hp]
    · rw [if_neg hjM]
      have he' := (I1.right_inv ho j hj).2
      rw [hglob j (Nat.le_of_not_lt hjM) hj] at he'
      have hL : (remap po pn (2 ^ (n - k) * r + o)).testBit j =
          (2 ^ (n - k) * r + o).testBit j := by
        have := testBit_remap ho hn (2 ^ (n - k) * r + o) _ hq
        rw [he, he'] at this
        exact this
      rw [hL, Nat.testBit_mul_pow_two_add r ho' j, if_neg hjM]
  · rw [testBit_remap_ge hn _ j (by omega), if_neg (by omega)]
    exact (testBit_false_of_lt hr (by omega)).symm

theorem block_div {L r o : Nat} (ho : o < L) : (L * r + o) / L = r := by
  have hL : 0 < L := by omega
  rw [Nat.mul_add_div hL, Nat.div_eq_of_lt ho, Nat.add_zero]

theorem block_mod {L r o : Nat} (ho : o < L) : (L * r + o) % L = o := by
  rw [Nat.mul_add_mod, Nat.mod_eq_of_lt ho]

/-- On a candidate that keeps the global positions, the scan leaves rank `r` with exactly the
register `PermuteLocal` computes on that rank from its own shard. -/
theorem PermuteAll_rank_eq_local {α : Type} [Zero α] (elem_type : ElementType)
    (regs : List (QubitRegister α))
    (new_map : List Nat) (style_of_map : String) (n k : Nat) (old cand : Permutation)
    (hk1 : 1 ≤ k) (hkn : k ≤ n) (hP : regs.length = 2 ^ k) (hT : elem_type = .ComplexDP)
    (hregs : ∀ reg ∈ regs,
      reg.num_qubits = n ∧ reg.permutation = old ∧ reg.state.length = 2 ^ (n - k))
    (hI1 : old.I1 n) (hcand : IsBij n new_map)
    (hstyle : style_of_map = "direct" ∨ style_of_map = "inverse")
    (hof : Permutation.ofMap new_map style_of_map = some cand)
    (hg : localGuard old.imap cand.imap (n - k) n = true)
    (r : Nat) (hr : r < regs.length) :
    ∃ reg', (PermuteAll true elem_type regs new_map style_of_map)[r]? = some (.done reg') ∧
      PermuteLocal (rankEnv regs.length r true elem_type)
        (regs.get ⟨r, hr⟩) new_map style_of_map = .done reg' ∧
      reg'.permutation = cand := by
  obtain ⟨cand', hof', hc1, hres, hofi⟩ := candidate_resolve hcand hstyle
  rw [hof] at hof'
  have hce : cand' = cand := (Option.some.inj hof').symm
  subst hce
  obtain ⟨cand2, hof2, -, hall⟩ := PermuteAll_spec true elem_type regs new_map style_of_map n k
    old hkn hP (fun _ => rfl) (fun _ => hT) hregs hI1 hcand hstyle
  rw [hof] at hof2
  have hce : cand2 = cand' := (Option.some.inj hof2).symm
  subst hce
  have hr2 : r < 2 ^ k := by rw [← hP]; exact hr
  obtain ⟨reg', hget, hperm', hnq', hlen', hst⟩ := hall r hr2
  obtain ⟨hnq, hperm, hlen⟩ := hregs _ (List.get_mem regs r hr)
  obtain ⟨-, hglob⟩ := (localGuard_iff old.imap cand2.imap (n - k) n
    (fun pos hp => by rw [hc1.2.1]; exact (I1.right_inv hI1 pos (by omega)).1)).mp hg
  have hgr : localGuard (regs.get ⟨r, hr⟩).permutation.imap cand2.imap
      (localBits (rankEnv regs.length r true elem_type) (regs.get ⟨r, hr⟩))
      (regs.get ⟨r, hr⟩).num_qubits = true := by
    rw [localBits_two_pow _ _ k hP, hperm, hnq]
    exact hg
  have hloc := PermuteLocal_of_guard
    (rankEnv regs.length r true elem_type) (regs.get ⟨r, hr⟩) new_map
    style_of_map cand2 (by rw [hcand.1, hnq]) hres hofi
  rw [hgr, if_pos rfl] at hloc
  have hle : 2 ^ (n - k) ≤ 2 ^ n := Nat.pow_le_pow_right (by decide) (Nat.sub_le _ _)
  have hin : ∀ i, i < 2 ^ (n - k) → remap old cand2 i < 2 ^ (n - k) :=
    fun i hi => remap_lt_local hI1 hc1 hglob i hi
  have hspec := remapLocal_spec (regs.get ⟨r, hr⟩).permutation cand2 (regs.get ⟨r, hr⟩).state
    (fun i hi => by rw [hlen] at hi ⊢; rw [hperm]; exact hin i hi)
    (fun i hi j hj h => by
      rw [hlen] at hi hj
      rw [hperm] at h
      exact remap_inj hI1 hc1 i (by omega) j (by omega) h)
  have hstate : reg'.state =
      remapLocal (regs.get ⟨r, hr⟩).permutation cand2 (regs.get ⟨r, hr⟩).state := by
    apply List.ext_getElem?
    intro j
    by_cases hj : j < 2 ^ (n - k)
    · have hjn : j < 2 ^ n := by omega
      have ho : remap cand2 old j < 2 ^ (n - k) :=
        remap_lt_local hc1 hI1 (fun pos h1 h2 => (hglob pos h1 h2).symm) j hj
      have hback := remap_remap hc1 hI1 j hjn
      have hblock := remap_block hkn hI1 hc1 hglob r (remap cand2 old j) hr2 ho
      rw [hback] at hblock
      have hi : 2 ^ (n - k) * r + remap cand2 old j < 2 ^ n := by
        have : 2 ^ (n - k) * (r + 1) ≤ 2 ^ (n - k) * 2 ^ k := Nat.mul_le_mul_left _ hr2
        rw [two_pow_split hkn, Nat.mul_succ] at this
        omega
      have h1 := hst _ hi (by rw [hblock]; exact block_div hj)
      rw [hblock, block_mod hj, Nat.mul_comm,
        allgather_getElem? regs (2 ^ (n - k)) (fun g hg => (hregs g hg).2.2) r _ hr ho] at h1
      have h2 := hspec.2 (remap cand2 old j) (by rw [hlen]; exact ho)
      rw [hperm, hback] at h2
      rw [h1, hperm, h2]
    · rw [List.getElem?_eq_none (by rw [hlen']; omega),
        List.getElem?_eq_none (by rw [hspec.1, hlen]; omega)]
  refine ⟨reg', hget, ?_, hperm'⟩
  rw [hloc]
  congr 1
  exact (reg_ext _ _ (by rw [hnq', ← hnq]) hperm' hstate).symm

/-! ## Claims -/

/-- C1: local engine postcondition.  With a single partition (so `M = n`), a current permutation
satisfying I1, a shard of `2^n` amplitudes and a bijective candidate in a valid style,
`PermuteLocal` and `Permute` both run to completion with the same register, in which the
candidate permutation is installed and `new_state[f i] = old_state[i]` for every
`i < 2^n`, where `f i = new.program2data_(old.data2program_(i))` is the one index below `2^n`
whose bit at position `new.toPhysical[q]` is the bit of `i` at position `old.toPhysical[q]`
for every logical qubit `q`. -/
theorem C1_local_engine_postcondition {α : Type} [Zero α] (env : Environment)
    (shards : List (List α)) (reg : QubitRegister α) (new_map : List Nat)
    (style_of_map : String)
    (hP : env.nprocs = 1)
    (hI1 : reg.permutation.I1 reg.num_qubits)
    (hsize : reg.state.length = 2 ^ reg.num_qubits)
    (hcand : IsCandidate reg.num_qubits new_map)
    (hstyle : style_of_map = "direct" ∨ style_of_map = "inverse") :
    ∃ cand reg', Permutation.ofMap new_map style_of_map = some cand ∧
      PermuteLocal env reg new_map style_of_map = .done reg' ∧
      Permute env shards reg new_map style_of_map = .done reg' ∧
      reg'.permutation = cand ∧ reg'.num_qubits = reg.num_qubits ∧
      reg'.state.length = 2 ^ reg.num_qubits ∧
      ∀ i, i < 2 ^ reg.num_qubits →
        remap reg.permutation cand i < 2 ^ reg.num_qubits ∧
        reg'.state[remap reg.permutation cand i]? = reg.state[i]? ∧
        (∀ q, q < reg.num_qubits →
          (remap reg.permutation cand i).testBit (cand.map.getD q 0) =
            i.testBit (reg.permutation.map.getD q 0)) ∧
        ∀ y, y < 2 ^ reg.num_qubits →
          (∀ q, q < reg.num_qubits →
            y.testBit (cand.map.getD q 0) = i.testBit (reg.permutation.map.getD q 0)) →
          y = remap reg.permutation cand i := by
  obtain ⟨cand, hof, hc1, hres, hof'⟩ := candidate_resolve hcand.isBij hstyle
  have hguard : localGuard reg.permutation.imap cand.imap (localBits env reg)
      reg.num_qubits = true := by
    rw [localBits_one env reg hP, localGuard_iff _ _ _ _
      (fun pos hp => by rw [hc1.2.1]; exact (I1.right_inv hI1 pos hp).1)]
    refine ⟨fun pos hp => ?_, fun pos h1 h2 => by omega⟩
    exact (I1.isBij_imap hc1).surj _ (I1.right_inv hI1 pos hp).1
  have hrun := PermuteLocal_of_guard env reg new_map style_of_map cand hcand.1 hres hof'
  rw [hguard, if_pos rfl] at hrun
  have hspec := remapLocal_spec reg.permutation cand reg.state
    (fun i _ => by rw [hsize]; exact remap_lt hc1 i)
    (fun i hi j hj h => remap_inj hI1 hc1 i (by rwa [hsize] at hi) j (by rwa [hsize] at hj) h)
  refine ⟨cand, _, hof, hrun, ?_, rfl, rfl, ?_, ?_⟩
  · unfold Permute
    rw [if_neg (by simpa using hcand.1.symm), if_pos hP, hrun]
  · show (remapLocal reg.permutation cand reg.state).length = _
    rw [hspec.1, hsize]
  · intro i hi
    refine ⟨remap_lt hc1 i, hspec.2 i (by rwa [hsize]), ?_, ?_⟩
    · intro q hq
      exact testBit_remap hI1 hc1 i q hq
    · intro y hy h
      exact remap_unique hI1 hc1 i y hy h

/-- C1, the concrete scenario: `n = 2`, one partition, identity start, candidate `[1,0]` in
style "direct"; the amplitudes `a00, a01, a10, a11` are written `10, 11, 12, 13`. -/
theorem C1_local_engine_postcondition_witness :
    PermuteLocal (α := Nat) ⟨1, 0, false, .ComplexDP⟩ ⟨2, ⟨[0, 1], [0, 1]⟩, [10, 11, 12, 13]⟩ [1, 0]
        "direct" = .done ⟨2, ⟨[1, 0], [1, 0]⟩, [10, 12, 11, 13]⟩ ∧
      ∃ cand reg', Permutation.ofMap [1, 0] "direct" = some cand ∧
        PermuteLocal (α := Nat) ⟨1, 0, false, .ComplexDP⟩ ⟨2, ⟨[0, 1], [0, 1]⟩, [10, 11, 12, 13]⟩ [1, 0]
          "direct" = .done reg' ∧
        Permute (α := Nat) ⟨1, 0, false, .ComplexDP⟩ [[10, 11, 12, 13]]
          ⟨2, ⟨[0, 1], [0, 1]⟩, [10, 11, 12, 13]⟩ [1, 0] "direct" = .done reg' ∧
        reg'.permutation = cand ∧ reg'.num_qubits = 2 ∧ reg'.state.length = 2 ^ 2 ∧
        ∀ i, i < 2 ^ 2 →
          remap ⟨[0, 1], [0, 1]⟩ cand i < 2 ^ 2 ∧
          reg'.state[remap ⟨[0, 1], [0, 1]⟩ cand i]? = [10, 11, 12, 13][i]? ∧
          (∀ q, q < 2 →
            (remap ⟨[0, 1], [0, 1]⟩ cand i).testBit (cand.map.getD q 0) =
              i.testBit ([0, 1].getD q 0)) ∧
          ∀ y, y < 2 ^ 2 →
            (∀ q, q < 2 → y.testBit (cand.map.getD q 0) = i.testBit ([0, 1].getD q 0)) →
            y = remap ⟨[0, 1], [0, 1]⟩ cand i :=
  ⟨by decide,
    C1_local_engine_postcondition (α := Nat) ⟨1, 0, false, .ComplexDP⟩ [[10, 11, 12, 13]]
      ⟨2, ⟨[0, 1], [0, 1]⟩, [10, 11, 12, 13]⟩ [1, 0] "direct" rfl (by decide) rfl
      (by decide) (Or.inl rfl)⟩

/-- C2: exactly-once writes within the shard.  With `P = 2^k` partitions (`M = n - k` local
positions), a current permutation satisfying I1, a shard of `2^M` amplitudes and a bijective
candidate that passes the validation of `PermuteLocal`, the index map
`f i = new.program2data_(old.data2program_(i))` sends `[0, 2^M)` into itself, injectively and
onto (every slot `j` is the target of exactly one `i`), so no write of the remap loop lands
outside the shard; the call completes, the new shard has `new[f i] = old[i]`, and it is a
rearrangement of the old shard. -/
theorem C2_local_writes_exactly_once {α : Type} [Zero α] (env : Environment)
    (reg : QubitRegister α) (new_map : List Nat) (style_of_map : String) (k : Nat)
    (hk : k ≤ reg.num_qubits) (hP : env.nprocs = 2 ^ k)
    (hI1 : reg.permutation.I1 reg.num_qubits)
    (hsize : reg.state.length = 2 ^ (reg.num_qubits - k))
    (hcand : IsCandidate reg.num_qubits new_map)
    (hpass : (PermuteLocal env reg new_map style_of_map).succeeded = true) :
    ∃ cand reg', Permutation.ofMap new_map style_of_map = some cand ∧
      PermuteLocal env reg new_map style_of_map = .done reg' ∧
      (∀ i, i < 2 ^ (reg.num_qubits - k) →
        remap reg.permutation cand i < 2 ^ (reg.num_qubits - k)) ∧
      (∀ i, i < 2 ^ (reg.num_qubits - k) → ∀ j, j < 2 ^ (reg.num_qubits - k) →
        remap reg.permutation cand i = remap reg.permutation cand j → i = j) ∧
      (∀ j, j < 2 ^ (reg.num_qubits - k) → ∃ i, i < 2 ^ (reg.num_qubits - k) ∧
        remap reg.permutation cand i = j ∧
        ∀ i', i' < 2 ^ (reg.num_qubits - k) → remap reg.permutation cand i' = j → i' = i) ∧
      reg'.state.length = 2 ^ (reg.num_qubits - k) ∧
      (∀ i, i < 2 ^ (reg.num_qubits - k) →
        reg'.state[remap reg.permutation cand i]? = reg.state[i]?) ∧
      reg'.state.Perm reg.state := by
  have hstyle := PermuteLocal_succeeded_style env reg new_map style_of_map hpass
  obtain ⟨cand, hof, hc1, hres, hof'⟩ := candidate_resolve hcand.isBij hstyle
  have hrun := PermuteLocal_of_guard env reg new_map style_of_map cand hcand.1 hres hof'
  have hM := localBits_two_pow env reg k hP
  have hguard : localGuard reg.permutation.imap cand.imap (localBits env reg)
      reg.num_qubits = true := by
    cases hg : localGuard reg.permutation.imap cand.imap (localBits env reg) reg.num_qubits
    · rw [hg] at hrun
      rw [hrun] at hpass
      simp [Outcome.succeeded] at hpass
    · rfl
  rw [hguard, if_pos rfl] at hrun
  rw [hM, localGuard_iff _ _ _ _ (fun pos hp => by
    rw [hc1.2.1]; exact (I1.right_inv hI1 pos (by omega)).1)] at hguard
  have hglob := hguard.2
  have hle : 2 ^ (reg.num_qubits - k) ≤ 2 ^ reg.num_qubits :=
    Nat.pow_le_pow_right (by decide) (Nat.sub_le _ _)
  have hin : ∀ i, i < 2 ^ (reg.num_qubits - k) →
      remap reg.permutation cand i < 2 ^ (reg.num_qubits - k) :=
    fun i hi => remap_lt_local hI1 hc1 hglob i hi
  have hinj : ∀ i, i < 2 ^ (reg.num_qubits - k) → ∀ j, j < 2 ^ (reg.num_qubits - k) →
      remap reg.permutation cand i = remap reg.permutation cand j → i = j :=
    fun i hi j hj h => remap_inj hI1 hc1 i (by omega) j (by omega) h
  have hspec := remapLocal_spec reg.permutation cand reg.state
    (fun i hi => by rw [hsize] at hi ⊢; exact hin i hi)
    (fun i hi j hj h => hinj i (by rwa [hsize] at hi) j (by rwa [hsize] at hj) h)
  refine ⟨cand, _, hof, hrun, hin, hinj, ?_, ?_, ?_, ?_⟩
  · intro j hj
    refine ⟨remap cand reg.permutation j, ?_, remap_remap hc1 hI1 j (by omega), ?_⟩
    · exact remap_lt_local hc1 hI1 (fun pos h1 h2 => (hglob pos h1 h2).symm) j hj
    · intro i' hi' h
      rw [← h, remap_remap hI1 hc1 i' (by omega)]
  · show (remapLocal reg.permutation cand reg.state).length = _
    rw [hspec.1, hsize]
  · intro i hi
    exact hspec.2 i (by rwa [hsize])
  · exact perm_of_rearranged reg.state _ (remap reg.permutation cand) hspec.1
      (fun i hi => by rw [hsize] at hi ⊢; exact hin i hi)
      (fun i hi j hj h => hinj i (by rwa [hsize] at hi) j (by rwa [hsize] at hj) h)
      hspec.2

/-- C2 at `n = 3`, `P = 2` (`M = 2`), identity start, candidate `[1,0,2]` in style "direct". -/
theorem C2_local_writes_exactly_once_witness :
    (PermuteLocal (α := Nat) ⟨2, 0, true, .ComplexDP⟩ ⟨3, ⟨[0, 1, 2], [0, 1, 2]⟩, [10, 11, 12, 13]⟩
        [1, 0, 2] "direct").succeeded = true ∧
      ∃ cand reg', Permutation.ofMap [1, 0, 2] "direct" = some cand ∧
        PermuteLocal (α := Nat) ⟨2, 0, true, .ComplexDP⟩ ⟨3, ⟨[0, 1, 2], [0, 1, 2]⟩, [10, 11, 12, 13]⟩
          [1, 0, 2] "direct" = .done reg' ∧
        (∀ i, i < 2 ^ (3 - 1) → remap ⟨[0, 1, 2], [0, 1, 2]⟩ cand i < 2 ^ (3 - 1)) ∧
        (∀ i, i < 2 ^ (3 - 1) → ∀ j, j < 2 ^ (3 - 1) →
          remap ⟨[0, 1, 2], [0, 1, 2]⟩ cand i = remap ⟨[0, 1, 2], [0, 1, 2]⟩ cand j → i = j) ∧
        (∀ j, j < 2 ^ (3 - 1) → ∃ i, i < 2 ^ (3 - 1) ∧
          remap ⟨[0, 1, 2], [0, 1, 2]⟩ cand i = j ∧
          ∀ i', i' < 2 ^ (3 - 1) → remap ⟨[0, 1, 2], [0, 1, 2]⟩ cand i' = j → i' = i) ∧
        reg'.state.length = 2 ^ (3 - 1) ∧
        (∀ i, i < 2 ^ (3 - 1) →
          reg'.state[remap ⟨[0, 1, 2], [0, 1, 2]⟩ cand i]? = [10, 11, 12, 13][i]?) ∧
        reg'.state.Perm [10, 11, 12, 13] :=
  ⟨by decide,
    C2_local_writes_exactly_once (α := Nat) ⟨2, 0, true, .ComplexDP⟩
      ⟨3, ⟨[0, 1, 2], [0, 1, 2]⟩, [10, 11, 12, 13]⟩ [1, 0, 2] "direct" 1 (by decide) rfl
      (by decide) rfl (by decide) (by decide)⟩

/-- C3: the all-gather of the multi-node branch passes `MPI_DOUBLE_COMPLEX` whatever the
element type is.  At `n = 2`, `P = 2`, identity start, shards `[10, 11]` and `[12, 13]`,
candidate `[1,0]` in style "direct": for `QubitRegister<ComplexSP>` the call moves 32 bytes
per rank out of shards of 16 bytes, so `Permute` runs into undefined behaviour on every rank
instead of leaving the global state `[10, 12, 11, 13]`, which is what the same call leaves for
`QubitRegister<ComplexDP>`. -/
theorem C3_distributed_baseline_overrun_single_precision :
    2 * sizeof_MPI_DOUBLE_COMPLEX = 32 ∧ 2 * ElementType.sizeof .ComplexSP = 16 ∧
    MPI_Allgather .ComplexSP 2 [[10, 11], [12, 13]] = (none : Option (List Nat)) ∧
    PermuteAll true .ComplexSP twoRanks [1, 0] "direct" = [.undefined, .undefined] ∧
    PermuteAll true .ComplexDP twoRanks [1, 0] "direct" =
      [.done ⟨2, ⟨[1, 0], [1, 0]⟩, [10, 12]⟩, .done ⟨2, ⟨[1, 0], [1, 0]⟩, [11, 13]⟩] := by
  decide

/-- C4: invariant I1.  If the current permutation satisfies I1 and the swap-exchange
collaborator `ApplySwap` leaves the permutation and the number of qubits untouched, then the
permutation satisfies I1 after every completed call of `Permute`, `PermuteLocal` (on a
bijective candidate), `EmulateSwap`, and `PermuteByLocalGlobalExchangeOfSinglePair`. -/
theorem C4_invariant_I1_preserved {α : Type} [Zero α] (env : Environment)
    (shards : List (List α))
    (ApplySwap : QubitRegister α → Nat → Nat → QubitRegister α)
    (reg : QubitRegister α)
    (hI1 : reg.permutation.I1 reg.num_qubits)
    (hApply : ∀ r a b, (ApplySwap r a b).permutation = r.permutation ∧
      (ApplySwap r a b).num_qubits = r.num_qubits) :
    (∀ new_map style_of_map reg', IsCandidate reg.num_qubits new_map →
      Permute env shards reg new_map style_of_map = .done reg' →
      reg'.permutation.I1 reg'.num_qubits) ∧
    (∀ new_map style_of_map reg', IsCandidate reg.num_qubits new_map →
      PermuteLocal env reg new_map style_of_map = .done reg' →
      reg'.permutation.I1 reg'.num_qubits) ∧
    (∀ qubit_1 qubit_2 reg', EmulateSwap reg qubit_1 qubit_2 = .done reg' →
      reg'.permutation.I1 reg'.num_qubits) ∧
    (∀ new_map style_of_map reg',
      PermuteByLocalGlobalExchangeOfSinglePair env ApplySwap reg new_map style_of_map
        = .done reg' →
      reg'.permutation.I1 reg'.num_qubits) := by
  have hswap : ∀ (r r' : QubitRegister α) (a b : Nat), r.permutation.I1 r.num_qubits →
      EmulateSwap r a b = .done r' → r'.permutation.I1 r'.num_qubits := by
    intro r r' a b hr h
    obtain ⟨ha, hb, rfl⟩ := EmulateSwap_done r r' a b h
    exact ExchangeTwoElements_I1 hr a b ha hb
  refine ⟨?_, ?_, ?_, ?_⟩
  · intro new_map style_of_map reg' hcand h
    obtain ⟨cand, -, hc1, hp, hn⟩ := Permute_done env shards reg reg' new_map style_of_map
      hcand h
    rw [hp, hn]; exact hc1
  · intro new_map style_of_map reg' hcand h
    obtain ⟨cand, -, hc1, -, rfl⟩ := PermuteLocal_done env reg reg' new_map style_of_map
      hcand h
    exact hc1
  · intro qubit_1 qubit_2 reg' h
    exact hswap reg reg' qubit_1 qubit_2 hI1 h
  · intro new_map style_of_map reg' h
    obtain ⟨cand, e0, e1, -, -, h' | h'⟩ := SinglePair_done env ApplySwap reg reg' new_map
      style_of_map h
    · exact hswap _ reg' e0 e1 (by rw [(hApply reg e0 e1).1, (hApply reg e0 e1).2]; exact hI1)
        h'.2.2
    · exact hswap _ reg' e1 e0 (by rw [(hApply reg e1 e0).1, (hApply reg e1 e0).2]; exact hI1)
        h'.2.2

/-- C4 at `n = 2`, `P = 2` (`M = 1`), rank 0 with shard `[10, 11]` (rank 1 holds `[12, 13]`),
identity start, with a collaborator that reverses the shard: each of the four methods
completes on the input shown, and the permutation it leaves satisfies I1. -/
theorem C4_invariant_I1_preserved_witness :
    Permutation.I1 ⟨[0, 1], [0, 1]⟩ 2 ∧
    (Permute rank0of2 [[10, 11], [12, 13]] reg2 [1, 0] "direct" =
        .done ⟨2, ⟨[1, 0], [1, 0]⟩, [10, 12]⟩ ∧ Permutation.I1 ⟨[1, 0], [1, 0]⟩ 2) ∧
    (PermuteLocal rank0of2 reg2 [0, 1] "inverse" = .done ⟨2, ⟨[0, 1], [0, 1]⟩, [10, 11]⟩ ∧
      Permutation.I1 ⟨[0, 1], [0, 1]⟩ 2) ∧
    (EmulateSwap reg2 0 1 = .done ⟨2, ⟨[1, 0], [1, 0]⟩, [10, 11]⟩ ∧
      Permutation.I1 ⟨[1, 0], [1, 0]⟩ 2) ∧
    (PermuteByLocalGlobalExchangeOfSinglePair rank0of2 reverseShard reg2 [1, 0] "direct" =
        .done ⟨2, ⟨[1, 0], [1, 0]⟩, [11, 10]⟩ ∧ Permutation.I1 ⟨[1, 0], [1, 0]⟩ 2) :=
  have h := C4_invariant_I1_preserved rank0of2 [[10, 11], [12, 13]] reverseShard reg2
    (by decide) (fun _ _ _ => ⟨rfl, rfl⟩)
  ⟨by decide,
    ⟨by decide, h.1 [1, 0] "direct" ⟨2, ⟨[1, 0], [1, 0]⟩, [10, 12]⟩ (by decide) (by decide)⟩,
    ⟨by decide, h.2.1 [0, 1] "inverse" ⟨2, ⟨[0, 1], [0, 1]⟩, [10, 11]⟩ (by decide)
      (by decide)⟩,
    ⟨by decide, h.2.2.1 0 1 ⟨2, ⟨[1, 0], [1, 0]⟩, [10, 11]⟩ (by decide)⟩,
    ⟨by decide, h.2.2.2 [1, 0] "direct" ⟨2, ⟨[1, 0], [1, 0]⟩, [11, 10]⟩ (by decide)⟩⟩

/-- C6: the pair-kind test of the single-pair coordinator compares the logical indices of the
two differing qubits with `M`, not their physical positions.  At `n = 3`, `P = 2` (`M = 2`),
current permutation `toPhysical = [2,1,0]`: the "direct" candidate `[1,2,0]` differs exactly
in qubits 0 and 1, which sit at positions 2 (global) and 1 (local), and the call aborts with
the register untouched; the "direct" candidate `[2,0,1]` differs exactly in qubits 1 and 2,
which sit at positions 1 and 0 (both local), and the call completes. -/
theorem C6_single_pair_kind_by_logical_index :
    localBits rank0of2 reg3Swapped = 2 ∧
    exchanged_qubits ⟨[1, 2, 0], [2, 0, 1]⟩ reg3Swapped.permutation 3 = [0, 1] ∧
    (reg3Swapped.permutation.get 0 = 2 ∧ reg3Swapped.permutation.get 1 = 1) ∧
    PermuteByLocalGlobalExchangeOfSinglePair rank0of2 reverseShard reg3Swapped [1, 2, 0] "direct" =
      .abort reg3Swapped ∧
    exchanged_qubits ⟨[2, 0, 1], [1, 2, 0]⟩ reg3Swapped.permutation 3 = [1, 2] ∧
    (reg3Swapped.permutation.get 1 = 1 ∧ reg3Swapped.permutation.get 2 = 0) ∧
    PermuteByLocalGlobalExchangeOfSinglePair rank0of2 reverseShard reg3Swapped [2, 0, 1] "direct" =
      .done ⟨3, ⟨[2, 0, 1], [1, 2, 0]⟩, [13, 12, 11, 10]⟩ := by
  decide

/-- C7: single-pair coordinator, pair count and atomicity.  On a register satisfying I1, with
a collaborator `ApplySwap` that leaves the permutation and the number of qubits untouched:
whenever the number of logical qubits whose position differs between the candidate and the
current permutation is not exactly two, the call aborts; and every aborting call (whatever
the candidate and the style) stops with the register, permutation and shard, exactly as it
was before the call, so before the collaborator could change anything. -/
theorem C7_single_pair_count_and_atomicity {α : Type} (env : Environment)
    (ApplySwap : QubitRegister α → Nat → Nat → QubitRegister α)
    (reg : QubitRegister α) (new_map : List Nat) (style_of_map : String)
    (hI1 : reg.permutation.I1 reg.num_qubits)
    (hApply : ∀ r a b, (ApplySwap r a b).permutation = r.permutation ∧
      (ApplySwap r a b).num_qubits = r.num_qubits) :
    (∀ cand, Permutation.ofMap new_map style_of_map = some cand →
      (List.range reg.num_qubits).countP
        (fun j => cand.map.getD j 0 != reg.permutation.map.getD j 0) ≠ 2 →
      PermuteByLocalGlobalExchangeOfSinglePair env ApplySwap reg new_map style_of_map =
        .abort reg) ∧
    (∀ s, PermuteByLocalGlobalExchangeOfSinglePair env ApplySwap reg new_map style_of_map =
        .abort s → s = reg) := by
  refine ⟨fun cand hof hcount => ?_, fun s h => ?_⟩
  · apply SinglePair_count env ApplySwap reg new_map style_of_map cand hof
    rw [List.countP_eq_length_filter] at hcount
    exact hcount
  · exact SinglePair_abort env ApplySwap reg s new_map style_of_map hI1 hApply h

/-- C7 at `n = 3`, `P = 2`, identity start: the 3-cycle `[1,2,0]` moves three qubits and the
call aborts with the register unchanged. -/
theorem C7_single_pair_count_and_atomicity_witness :
    Permutation.I1 reg3.permutation reg3.num_qubits ∧
    (List.range 3).countP
      (fun j => [1, 2, 0].getD j 0 != reg3.permutation.map.getD j 0) = 3 ∧
    PermuteByLocalGlobalExchangeOfSinglePair rank0of2 reverseShard reg3 [1, 2, 0] "direct" =
      .abort reg3 ∧
    (∀ s, PermuteByLocalGlobalExchangeOfSinglePair rank0of2 reverseShard reg3 [1, 2, 0] "direct"
      = .abort s → s = reg3) :=
  have h := C7_single_pair_count_and_atomicity rank0of2 reverseShard reg3 [1, 2, 0] "direct"
    (by decide) (fun _ _ _ => ⟨rfl, rfl⟩)
  ⟨by decide, by decide, h.1 ⟨[1, 2, 0], [2, 0, 1]⟩ (by decide) (by decide), h.2⟩

/-- C8: single-pair coordinator, success postcondition.  On a register satisfying I1, with a
collaborator `ApplySwap` that leaves the permutation and the number of qubits untouched, and a
bijective candidate: a completed call installs exactly the candidate permutation; the two
differing logical qubits `e0, e1` have traded physical positions, every other qubit keeps its
position, and the shard is the one the collaborator produced. -/
theorem C8_single_pair_success_postcondition {α : Type} (env : Environment)
    (ApplySwap : QubitRegister α → Nat → Nat → QubitRegister α)
    (reg reg' : QubitRegister α) (new_map : List Nat) (style_of_map : String)
    (hI1 : reg.permutation.I1 reg.num_qubits)
    (hApply : ∀ r a b, (ApplySwap r a b).permutation = r.permutation ∧
      (ApplySwap r a b).num_qubits = r.num_qubits)
    (hcand : IsCandidate reg.num_qubits new_map)
    (hdone : PermuteByLocalGlobalExchangeOfSinglePair env ApplySwap reg new_map style_of_map
      = .done reg') :
    ∃ cand e0 e1, Permutation.ofMap new_map style_of_map = some cand ∧
      reg'.permutation = cand ∧ reg'.num_qubits = reg.num_qubits ∧
      exchanged_qubits cand reg.permutation reg.num_qubits = [e0, e1] ∧
      e0 < reg.num_qubits ∧ e1 < reg.num_qubits ∧ e0 ≠ e1 ∧
      reg'.permutation.map.getD e0 0 = reg.permutation.map.getD e1 0 ∧
      reg'.permutation.map.getD e1 0 = reg.permutation.map.getD e0 0 ∧
      (∀ j, j < reg.num_qubits → j ≠ e0 → j ≠ e1 →
        reg'.permutation.map.getD j 0 = reg.permutation.map.getD j 0) ∧
      (reg'.state = (ApplySwap reg e0 e1).state ∨ reg'.state = (ApplySwap reg e1 e0).state) := by
  obtain ⟨cand, e0, e1, hof, hex, hcase⟩ := SinglePair_done env ApplySwap reg reg' new_map
    style_of_map hdone
  have hstyle : style_of_map = "direct" ∨ style_of_map = "inverse" := by
    by_contra hs
    rw [ofMap_style (not_or.mp hs)] at hof
    cases hof
  obtain ⟨cand', hof', hc1, -, -⟩ := candidate_resolve hcand.isBij hstyle
  rw [hof] at hof'
  cases hof'
  obtain ⟨h0, h1, hne, hd0, hd1, hsame⟩ := exchanged_qubits_pair hex
  have hperm : reg'.permutation = cand ∧ reg'.num_qubits = reg.num_qubits ∧
      (reg'.state = (ApplySwap reg e0 e1).state ∨
        reg'.state = (ApplySwap reg e1 e0).state) := by
    rcases hcase with ⟨-, -, hsw⟩ | ⟨-, -, hsw⟩
    · obtain ⟨-, -, rfl⟩ := EmulateSwap_done _ reg' e0 e1 hsw
      refine ⟨?_, (hApply reg e0 e1).2, Or.inl rfl⟩
      show (ApplySwap reg e0 e1).permutation.ExchangeTwoElements _ _ = cand
      rw [(hApply reg e0 e1).1]
      exact exchange_eq_cand hI1 hc1 h0 h1 hne hd0 hd1 hsame
    · obtain ⟨-, -, rfl⟩ := EmulateSwap_done _ reg' e1 e0 hsw
      refine ⟨?_, (hApply reg e1 e0).2, Or.inr rfl⟩
      show (ApplySwap reg e1 e0).permutation.ExchangeTwoElements _ _ = cand
      rw [(hApply reg e1 e0).1]
      exact exchange_eq_cand hI1 hc1 h1 h0 (Ne.symm hne) hd1 hd0
        (fun j hj ha hb => hsame j hj hb ha)
  obtain ⟨hp, hn, hst⟩ := hperm
  have hsw := exchange_eq_cand hI1 hc1 h0 h1 hne hd0 hd1 hsame
  have hm := ExchangeTwoElements_map hI1 e0 e1 h0 h1
  rw [hsw] at hm
  refine ⟨cand, e0, e1, hof, hp, hn, hex, h0, h1, hne, ?_, ?_, ?_, hst⟩
  · rw [hp, hm e0, if_neg hne, if_pos rfl]
  · rw [hp, hm e1, if_pos rfl]
  · intro j hj hj0 hj1
    rw [hp, hm j, if_neg hj1, if_neg hj0]

/-- C8 at `n = 3`, `P = 2` (`M = 2`), identity start, candidate `[0,2,1]` in style "direct",
which differs in the qubits 1 (index below `M`) and 2. -/
theorem C8_single_pair_success_postcondition_witness :
    PermuteByLocalGlobalExchangeOfSinglePair rank0of2 reverseShard reg3 [0, 2, 1] "direct" =
        .done ⟨3, ⟨[0, 2, 1], [0, 2, 1]⟩, [13, 12, 11, 10]⟩ ∧
      ∃ cand e0 e1, Permutation.ofMap [0, 2, 1] "direct" = some cand ∧
        (⟨[0, 2, 1], [0, 2, 1]⟩ : Permutation) = cand ∧ 3 = reg3.num_qubits ∧
        exchanged_qubits cand reg3.permutation reg3.num_qubits = [e0, e1] ∧
        e0 < reg3.num_qubits ∧ e1 < reg3.num_qubits ∧ e0 ≠ e1 ∧
        [0, 2, 1].getD e0 0 = reg3.permutation.map.getD e1 0 ∧
        [0, 2, 1].getD e1 0 = reg3.permutation.map.getD e0 0 ∧
        (∀ j, j < reg3.num_qubits → j ≠ e0 → j ≠ e1 →
          [0, 2, 1].getD j 0 = reg3.permutation.map.getD j 0) ∧
        ([13, 12, 11, 10] = (reverseShard reg3 e0 e1).state ∨
          [13, 12, 11, 10] = (reverseShard reg3 e1 e0).state) :=
  ⟨by decide,
    C8_single_pair_success_postcondition rank0of2 reverseShard reg3
      ⟨3, ⟨[0, 2, 1], [0, 2, 1]⟩, [13, 12, 11, 10]⟩ [0, 2, 1] "direct" (by decide)
      (fun _ _ _ => ⟨rfl, rfl⟩) (by decide) (by decide)⟩

/-- C9: LocalOnly split guard, accepts-iff.  With `P = 2^k` partitions (`M = n - k`), a current
permutation satisfying I1 and a bijective candidate in a valid style, `PermuteLocal` completes
if and only if (a) every position in `[0, M)` of the new inverse map holds a logical qubit that
held some position in `[0, M)` under the old inverse map and (b) every position in `[M, n)`
holds the same qubit in both; otherwise it aborts with the register unchanged. -/
theorem C9_local_guard_accepts_iff {α : Type} [Zero α] (env : Environment)
    (reg : QubitRegister α) (new_map : List Nat) (style_of_map : String) (k : Nat)
    (hk : k ≤ reg.num_qubits) (hP : env.nprocs = 2 ^ k)
    (hI1 : reg.permutation.I1 reg.num_qubits)
    (hcand : IsCandidate reg.num_qubits new_map)
    (hstyle : style_of_map = "direct" ∨ style_of_map = "inverse") :
    ∃ new_inv, new_inverse_map new_map style_of_map = some new_inv ∧
      ((PermuteLocal env reg new_map style_of_map).succeeded = true ↔
        (∀ pos, pos < reg.num_qubits - k → ∃ pos', pos' < reg.num_qubits - k ∧
          reg.permutation.imap.getD pos' 0 = new_inv.getD pos 0) ∧
        (∀ pos, reg.num_qubits - k ≤ pos → pos < reg.num_qubits →
          new_inv.getD pos 0 = reg.permutation.imap.getD pos 0)) ∧
      ((PermuteLocal env reg new_map style_of_map).succeeded = false →
        PermuteLocal env reg new_map style_of_map = .abort reg) := by
  obtain ⟨cand, hof, hc1, hres, hof'⟩ := candidate_resolve hcand.isBij hstyle
  have hrun := PermuteLocal_of_guard env reg new_map style_of_map cand hcand.1 hres hof'
  have hM := localBits_two_pow env reg k hP
  have hg := localGuard_iff reg.permutation.imap cand.imap (reg.num_qubits - k)
    reg.num_qubits (fun pos hp => by
      rw [hc1.2.1]; exact (I1.right_inv hI1 pos (by omega)).1)
  rw [hM] at hrun
  refine ⟨cand.imap, hres, ?_, ?_⟩
  · rw [hrun]
    cases hgv : localGuard reg.permutation.imap cand.imap (reg.num_qubits - k) reg.num_qubits
    · rw [hgv] at hg
      simp only [Bool.false_eq_true, if_false, Outcome.succeeded, false_iff]
      rintro ⟨ha, hb⟩
      have := hg.mpr ⟨initial_image_swap (I1.isBij_imap hc1) (I1.isBij_imap hI1)
        (Nat.sub_le _ _) ha, fun pos h1 h2 => (hb pos h1 h2).symm⟩
      cases this
    · rw [hgv] at hg
      simp only [if_true, Outcome.succeeded, true_iff]
      obtain ⟨ha, hb⟩ := hg.mp rfl
      exact ⟨initial_image_swap (I1.isBij_imap hI1) (I1.isBij_imap hc1) (Nat.sub_le _ _) ha,
        fun pos h1 h2 => (hb pos h1 h2).symm⟩
  · rw [hrun]
    cases localGuard reg.permutation.imap cand.imap (reg.num_qubits - k) reg.num_qubits
    · intro _; rfl
    · intro h; cases h

/-- C9, the concrete scenario: `n = 3`, `P = 2`, `M = 2`, identity start.  The inverse-style
candidate `[1,0,2]`, which permutes only the positions 0 and 1, is accepted; the candidate
`[2,1,0]`, which moves the qubit at position 2 to position 0, is rejected with the register
unchanged. -/
theorem C9_local_guard_accepts_iff_witness :
    (PermuteLocal rank0of2 reg3 [1, 0, 2] "inverse").succeeded = true ∧
    PermuteLocal rank0of2 reg3 [2, 1, 0] "inverse" = .abort reg3 ∧
    ∃ new_inv, new_inverse_map [1, 0, 2] "inverse" = some new_inv ∧
      ((PermuteLocal rank0of2 reg3 [1, 0, 2] "inverse").succeeded = true ↔
        (∀ pos, pos < reg3.num_qubits - 1 → ∃ pos', pos' < reg3.num_qubits - 1 ∧
          reg3.permutation.imap.getD pos' 0 = new_inv.getD pos 0) ∧
        (∀ pos, reg3.num_qubits - 1 ≤ pos → pos < reg3.num_qubits →
          new_inv.getD pos 0 = reg3.permutation.imap.getD pos 0)) ∧
      ((PermuteLocal rank0of2 reg3 [1, 0, 2] "inverse").succeeded = false →
        PermuteLocal rank0of2 reg3 [1, 0, 2] "inverse" = .abort reg3) :=
  ⟨by decide, by decide,
    C9_local_guard_accepts_iff rank0of2 reg3 [1, 0, 2] "inverse" 1 (by decide) rfl (by decide)
      (by decide) (Or.inr rfl)⟩

/-- C10: global-only guard.  For every register on at least `log2(P)` qubits (so that
`M = n - ilog2(P)` does not wrap: `M + ilog2(P) = n`) and every bijective candidate in a valid
style, `PermuteGlobal` completes if and only if the candidate's resolved inverse map equals
the current inverse map at every position in `[0, n)`; and in every case the register it ends
with (shard and permutation) is the one it started with. -/
theorem C10_global_guard_identity_only {α : Type} (env : Environment)
    (reg : QubitRegister α) (new_map : List Nat) (style_of_map : String)
    (hM : ilog2 env.nprocs ≤ reg.num_qubits)
    (hcand : IsCandidate reg.num_qubits new_map)
    (hstyle : style_of_map = "direct" ∨ style_of_map = "inverse") :
    localBits env reg + ilog2 env.nprocs = reg.num_qubits ∧
    ∃ new_inv, new_inverse_map new_map style_of_map = some new_inv ∧
      ((PermuteGlobal env reg new_map style_of_map).succeeded = true ↔
        ∀ pos, pos < reg.num_qubits →
          new_inv.getD pos 0 = reg.permutation.imap.getD pos 0) ∧
      (PermuteGlobal env reg new_map style_of_map).reg = some reg := by
  obtain ⟨cand, -, hc1, hres, -⟩ := candidate_resolve hcand.isBij hstyle
  refine ⟨Nat.sub_add_cancel hM, cand.imap, hres, ?_,
    PermuteGlobal_reg env reg new_map style_of_map⟩
  rw [PermuteGlobal_of_guard env reg new_map style_of_map cand.imap hcand.1 hres,
    ← globalGuard_iff reg.permutation.imap cand.imap (localBits env reg) reg.num_qubits
      (Nat.sub_le _ _) (fun pos hp => by rw [hc1.2.1]; exact (I1.right_inv hc1 pos hp).1)]
  cases globalGuard reg.permutation.imap cand.imap (localBits env reg) reg.num_qubits <;>
    simp [Outcome.succeeded]

/-- C10 at `n = 4`, `P = 4` (`M = 2`), identity start: the identity candidate is accepted, the
candidate `[0,1,3,2]` that exchanges the two global positions is rejected, and neither call
changes the register. -/
theorem C10_global_guard_identity_only_witness :
    ilog2 rank0of4.nprocs ≤ reg4.num_qubits ∧
    PermuteGlobal rank0of4 reg4 [0, 1, 2, 3] "inverse" = .done reg4 ∧
    PermuteGlobal rank0of4 reg4 [0, 1, 3, 2] "inverse" = .abort reg4 ∧
    localBits rank0of4 reg4 + ilog2 rank0of4.nprocs = reg4.num_qubits ∧
    ∃ new_inv, new_inverse_map [0, 1, 3, 2] "inverse" = some new_inv ∧
      ((PermuteGlobal rank0of4 reg4 [0, 1, 3, 2] "inverse").succeeded = true ↔
        ∀ pos, pos < reg4.num_qubits →
          new_inv.getD pos 0 = reg4.permutation.imap.getD pos 0) ∧
      (PermuteGlobal rank0of4 reg4 [0, 1, 3, 2] "inverse").reg = some reg4 :=
  ⟨by decide, by decide, by decide,
    C10_global_guard_identity_only rank0of4 reg4 [0, 1, 3, 2] "inverse" (by decide)
      (by decide) (Or.inr rfl)⟩

/-- C11: swap postcondition and frame.  On a register satisfying I1 and logical qubits
`q1, q2 < n`, `EmulateSwap` completes; afterwards `toPhysical'[q1] = toPhysical[q2]` and
`toPhysical'[q2] = toPhysical[q1]`, the inverse array has its entries at those two positions
exchanged, every other entry of both arrays (which keep their length) is unchanged, and the
shard and the number of qubits are unchanged.  Nothing in the statement depends on the
number of partitions, so it holds for local, global and mixed pairs alike. -/
theorem C11_swap_postcondition_and_frame {α : Type} (reg : QubitRegister α) (q1 q2 : Nat)
    (hI1 : reg.permutation.I1 reg.num_qubits)
    (h1 : q1 < reg.num_qubits) (h2 : q2 < reg.num_qubits) :
    ∃ reg', EmulateSwap reg q1 q2 = .done reg' ∧
      reg'.state = reg.state ∧ reg'.num_qubits = reg.num_qubits ∧
      reg'.permutation.map.length = reg.permutation.map.length ∧
      reg'.permutation.imap.length = reg.permutation.imap.length ∧
      reg'.permutation.map.getD q1 0 = reg.permutation.map.getD q2 0 ∧
      reg'.permutation.map.getD q2 0 = reg.permutation.map.getD q1 0 ∧
      (∀ q, q ≠ q1 → q ≠ q2 →
        reg'.permutation.map.getD q 0 = reg.permutation.map.getD q 0) ∧
      reg'.permutation.imap.getD (reg.permutation.map.getD q1 0) 0 =
        reg.permutation.imap.getD (reg.permutation.map.getD q2 0) 0 ∧
      reg'.permutation.imap.getD (reg.permutation.map.getD q2 0) 0 =
        reg.permutation.imap.getD (reg.permutation.map.getD q1 0) 0 ∧
      (∀ pos, pos ≠ reg.permutation.map.getD q1 0 → pos ≠ reg.permutation.map.getD q2 0 →
        reg'.permutation.imap.getD pos 0 = reg.permutation.imap.getD pos 0) := by
  have hinj := (I1.isBij_map hI1).2.2
  have hsw := ExchangeTwoElements_I1 hI1 q1 q2 h1 h2
  have hm := ExchangeTwoElements_map hI1 q1 q2 h1 h2
  have him := ExchangeTwoElements_imap hI1 q1 q2 h1 h2
  refine ⟨_, EmulateSwap_of_I1 reg q1 q2 hI1 h1 h2, rfl, rfl, ?_, ?_, ?_, ?_, ?_, ?_, ?_, ?_⟩
  · show (reg.permutation.ExchangeTwoElements _ _).map.length = _
    rw [hsw.1, hI1.1]
  · show (reg.permutation.ExchangeTwoElements _ _).imap.length = _
    rw [hsw.2.1, hI1.2.1]
  · show (reg.permutation.ExchangeTwoElements _ _).map.getD q1 0 = _
    rw [hm q1]
    by_cases h : q1 = q2
    · rw [if_pos h, h]
    · rw [if_neg h, if_pos rfl]
  · show (reg.permutation.ExchangeTwoElements _ _).map.getD q2 0 = _
    rw [hm q2, if_pos rfl]
  · intro q hq1 hq2
    show (reg.permutation.ExchangeTwoElements _ _).map.getD q 0 = _
    rw [hm q, if_neg hq2, if_neg hq1]
  · show (reg.permutation.ExchangeTwoElements _ _).imap.getD _ 0 = _
    rw [him, (hI1.2.2 q2 h2).2]
    by_cases h : reg.permutation.map.getD q1 0 = reg.permutation.map.getD q2 0
    · rw [if_pos h]; exact hinj q1 h1 q2 h2 h
    · rw [if_neg h, if_pos rfl]
  · show (reg.permutation.ExchangeTwoElements _ _).imap.getD _ 0 = _
    rw [him, (hI1.2.2 q1 h1).2, if_pos rfl]
  · intro pos hp1 hp2
    show (reg.permutation.ExchangeTwoElements _ _).imap.getD pos 0 = _
    rw [him, if_neg hp2, if_neg hp1]

/-- C11 at `n = 3`, identity start: swapping the logical qubits 0 and 2 gives
`toPhysical = [2,1,0]`, `toLogical = [2,1,0]` and leaves the shard alone. -/
theorem C11_swap_postcondition_and_frame_witness :
    EmulateSwap reg3 0 2 = .done ⟨3, ⟨[2, 1, 0], [2, 1, 0]⟩, [10, 11, 12, 13]⟩ ∧
    ∃ reg', EmulateSwap reg3 0 2 = .done reg' ∧
      reg'.state = reg3.state ∧ reg'.num_qubits = reg3.num_qubits ∧
      reg'.permutation.map.length = reg3.permutation.map.length ∧
      reg'.permutation.imap.length = reg3.permutation.imap.length ∧
      reg'.permutation.map.getD 0 0 = reg3.permutation.map.getD 2 0 ∧
      reg'.permutation.map.getD 2 0 = reg3.permutation.map.getD 0 0 ∧
      (∀ q, q ≠ 0 → q ≠ 2 →
        reg'.permutation.map.getD q 0 = reg3.permutation.map.getD q 0) ∧
      reg'.permutation.imap.getD (reg3.permutation.map.getD 0 0) 0 =
        reg3.permutation.imap.getD (reg3.permutation.map.getD 2 0) 0 ∧
      reg'.permutation.imap.getD (reg3.permutation.map.getD 2 0) 0 =
        reg3.permutation.imap.getD (reg3.permutation.map.getD 0 0) 0 ∧
      (∀ pos, pos ≠ reg3.permutation.map.getD 0 0 → pos ≠ reg3.permutation.map.getD 2 0 →
        reg'.permutation.imap.getD pos 0 = reg3.permutation.imap.getD pos 0) :=
  ⟨by decide, C11_swap_postcondition_and_frame reg3 0 2 (by decide) (by decide) (by decide)⟩

/-- C12: swap involution.  On a register satisfying I1 and logical qubits `a, b < n`,
`EmulateSwap(a, b)` completes, a second `EmulateSwap(a, b)` (which looks the two positions up
again) completes too, and the register it returns is the starting register: the forward and
the inverse array are restored exactly. -/
theorem C12_swap_involution {α : Type} (reg : QubitRegister α) (a b : Nat)
    (hI1 : reg.permutation.I1 reg.num_qubits)
    (ha : a < reg.num_qubits) (hb : b < reg.num_qubits) :
    ∃ reg1, EmulateSwap reg a b = .done reg1 ∧ EmulateSwap reg1 a b = .done reg := by
  have hrun2 := EmulateSwap_of_I1
    { reg with permutation := (reg.permutation.ExchangeTwoElements
        (reg.permutation.map.getD a 0) (reg.permutation.map.getD b 0)) }
    a b (ExchangeTwoElements_I1 hI1 a b ha hb) ha hb
  refine ⟨_, EmulateSwap_of_I1 reg a b hI1 ha hb, ?_⟩
  rw [hrun2]
  congr 1
  exact reg_ext _ _ rfl (ExchangeTwoElements_twice hI1 a b ha hb) rfl

/-- C12 at `n = 3`, identity start, qubits 0 and 2. -/
theorem C12_swap_involution_witness :
    EmulateSwap reg3 0 2 = .done ⟨3, ⟨[2, 1, 0], [2, 1, 0]⟩, [10, 11, 12, 13]⟩ ∧
    EmulateSwap ⟨3, ⟨[2, 1, 0], [2, 1, 0]⟩, [10, 11, 12, 13]⟩ 0 2 = .done reg3 ∧
    ∃ reg1, EmulateSwap reg3 0 2 = .done reg1 ∧ EmulateSwap reg1 0 2 = .done reg3 :=
  ⟨by decide, by decide, C12_swap_involution reg3 0 2 (by decide) (by decide) (by decide)⟩

/-- C13: equivalence of the two encodings.  For a bijection `m` on `[0, n)` and the array
`minv` of length `n` with `minv[m[q]] = q` for every `q`, the inverse map resolved from
`(m, "direct")` and from `(minv, "inverse")` is the same array: it is `minv` itself, and it
satisfies `inv[m[q]] = q`.  Hence, from every starting register, `PermuteLocal(m, "direct")`
and `PermuteLocal(minv, "inverse")` have the same outcome: they accept or reject together and
return the same shard and the same permutation. -/
theorem C13_encodings_equivalent {α : Type} [Zero α] (env : Environment)
    (reg : QubitRegister α) (m minv : List Nat) (n : Nat)
    (hm : IsCandidate n m) (hlen : minv.length = n)
    (hinv : ∀ q, q < n → minv.getD (m.getD q 0) 0 = q) :
    (∃ inv, new_inverse_map m "direct" = some inv ∧
      new_inverse_map minv "inverse" = some inv ∧ inv = minv ∧
      ∀ q, q < n → inv.getD (m.getD q 0) 0 = q) ∧
    PermuteLocal env reg m "direct" = PermuteLocal env reg minv "inverse" := by
  have he := eq_invert_of_left_inverse hm.isBij hlen hinv
  have h1 := new_inverse_map_direct hm.isBij
  have h2 := new_inverse_map_inverse minv
  rw [← he] at h1
  refine ⟨⟨minv, h1, h2, rfl, hinv⟩, ?_⟩
  unfold PermuteLocal
  rw [h1, h2, hm.1, hlen]

/-- C13 at `n = 3`, one partition, identity start: the 3-cycle `[1,2,0]` as a "direct" map
and its inverse `[2,0,1]` as an "inverse" map. -/
theorem C13_encodings_equivalent_witness :
    PermuteLocal singleRank reg3Full [1, 2, 0] "direct" =
      .done ⟨3, ⟨[1, 2, 0], [2, 0, 1]⟩, [0, 4, 1, 5, 2, 6, 3, 7]⟩ ∧
    (∃ inv, new_inverse_map [1, 2, 0] "direct" = some inv ∧
      new_inverse_map [2, 0, 1] "inverse" = some inv ∧ inv = [2, 0, 1] ∧
      ∀ q, q < 3 → inv.getD ([1, 2, 0].getD q 0) 0 = q) ∧
    PermuteLocal singleRank reg3Full [1, 2, 0] "direct" =
      PermuteLocal singleRank reg3Full [2, 0, 1] "inverse" :=
  ⟨by decide,
    C13_encodings_equivalent singleRank reg3Full [1, 2, 0] [2, 0, 1] 3 (by decide) rfl
      (by decide)⟩

/-- C15: single-partition equivalence.  With one partition, for every register, candidate
array and style, `Permute` and `PermuteLocal` have the same outcome: they accept or reject
together and return the same shard and the same permutation. -/
theorem C15_single_partition_equivalence {α : Type} [Zero α] (env : Environment)
    (shards : List (List α)) (reg : QubitRegister α) (new_map : List Nat)
    (style_of_map : String) (hP : env.nprocs = 1) :
    Permute env shards reg new_map style_of_map =
      PermuteLocal env reg new_map style_of_map := by
  unfold Permute
  by_cases hlen : reg.num_qubits = new_map.length
  · rw [if_neg (not_not.mpr hlen), if_pos hP]
  · rw [if_pos hlen, PermuteLocal_bad_length env reg new_map style_of_map
      (fun h => hlen h.symm)]

/-- C15 at `n = 3`, one partition, identity start: an accepted candidate, a candidate of the
wrong length and an unknown style. -/
theorem C15_single_partition_equivalence_witness :
    singleRank.nprocs = 1 ∧
    Permute singleRank [reg3Full.state] reg3Full [1, 2, 0] "direct" =
      .done ⟨3, ⟨[1, 2, 0], [2, 0, 1]⟩, [0, 4, 1, 5, 2, 6, 3, 7]⟩ ∧
    Permute singleRank [reg3Full.state] reg3Full [1, 2, 0] "direct" =
      PermuteLocal singleRank reg3Full [1, 2, 0] "direct" ∧
    Permute singleRank [reg3Full.state] reg3Full [1, 0] "direct" =
      PermuteLocal singleRank reg3Full [1, 0] "direct" ∧
    Permute singleRank [reg3Full.state] reg3Full [1, 2, 0] "sideways" =
      PermuteLocal singleRank reg3Full [1, 2, 0] "sideways" :=
  ⟨rfl, by decide,
    C15_single_partition_equivalence singleRank [reg3Full.state] reg3Full [1, 2, 0] "direct"
      rfl,
    C15_single_partition_equivalence singleRank [reg3Full.state] reg3Full [1, 0] "direct" rfl,
    C15_single_partition_equivalence singleRank [reg3Full.state] reg3Full [1, 2, 0]
      "sideways" rfl⟩

/-- C16: validity of the distributed scan's assertion.  For every shard length `L > 0`:
the offset `to_glbind - (to_glbind / L) * L` is below `L` for every destination index, so no
iteration of the scan can abort, and the whole scan of lines 46-58 completes; and when the
new permutation satisfies I1 on `n` qubits and `L = 2^(n-k)`, every destination index is below
`GlobalSize = L * 2^k` and its rank `to_glbind / L` is below `P = 2^k`. -/
theorem C16_scan_assertion_never_fails {α : Type} [Zero α] (po pn : Permutation)
    (L myrank G : Nat) (glb_state state : List α) (hL : 0 < L) :
    (∀ to_glbind, to_glbind - to_glbind / L * L < L) ∧
    (∀ st i, ∃ st', scanStep po pn L myrank glb_state (.done st) i = .done st') ∧
    (∃ st', scanGlobal po pn L myrank G glb_state state = .done st') ∧
    (∀ n k, k ≤ n → pn.I1 n → L = 2 ^ (n - k) →
      ∀ i, remap po pn i < L * 2 ^ k ∧ remap po pn i / L < 2 ^ k) := by
  have hoff : ∀ to_glbind, to_glbind - to_glbind / L * L < L := by
    intro t
    have : t - t / L * L = t % L := by rw [Nat.mod_def, Nat.mul_comm]
    rw [this]
    exact Nat.mod_lt _ hL
  refine ⟨hoff, fun st i => ?_, ⟨_, scanGlobal_eq po pn L myrank G glb_state state hL⟩, ?_⟩
  · unfold scanStep
    dsimp only
    by_cases hr : remap po pn i / L = myrank
    · rw [if_pos hr, if_pos (hoff _)]
      exact ⟨_, rfl⟩
    · rw [if_neg hr]
      exact ⟨_, rfl⟩
  · intro n k hk hn hLe i
    have hlt : remap po pn i < L * 2 ^ k := by
      rw [hLe, two_pow_split hk]
      exact remap_lt hn i
    exact ⟨hlt, Nat.div_lt_of_lt_mul hlt⟩

/-- C16 at `L = 2`, rank 0 of two, `n = 2`, `k = 1`, from the identity to
`toPhysical = [1,0]`: the scan completes with the shard `[10, 12]`. -/
theorem C16_scan_assertion_never_fails_witness :
    0 < 2 ∧
    scanGlobal ⟨[0, 1], [0, 1]⟩ ⟨[1, 0], [1, 0]⟩ 2 0 4 [10, 11, 12, 13] [10, 11] =
      .done [10, 12] ∧
    (∀ to_glbind, to_glbind - to_glbind / 2 * 2 < 2) ∧
    (∀ st i, ∃ st', scanStep ⟨[0, 1], [0, 1]⟩ ⟨[1, 0], [1, 0]⟩ 2 0 [10, 11, 12, 13]
      (.done st) i = .done st') ∧
    (∃ st', scanGlobal ⟨[0, 1], [0, 1]⟩ ⟨[1, 0], [1, 0]⟩ 2 0 4 [10, 11, 12, 13] [10, 11] =
      .done st') ∧
    (1 ≤ 2 ∧ Permutation.I1 ⟨[1, 0], [1, 0]⟩ 2 ∧ 2 = 2 ^ (2 - 1)) ∧
    (∀ i, remap ⟨[0, 1], [0, 1]⟩ ⟨[1, 0], [1, 0]⟩ i < 2 * 2 ^ 1 ∧
      remap ⟨[0, 1], [0, 1]⟩ ⟨[1, 0], [1, 0]⟩ i / 2 < 2 ^ 1) :=
  have h := C16_scan_assertion_never_fails ⟨[0, 1], [0, 1]⟩ ⟨[1, 0], [1, 0]⟩ 2 0 4
    [10, 11, 12, 13] [10, 11] (by decide)
  ⟨by decide, by decide, h.1, h.2.1, h.2.2.1, by decide,
    h.2.2.2 2 1 (by decide) (by decide) (by decide)⟩

/-- C17: for `QubitRegister<ComplexSP>` on more than one rank the first `Permute` already
overruns the buffers of its all-gather (which passes `MPI_DOUBLE_COMPLEX`).  At `n = 3`,
`P = 2`, identity start, shards `[0, 1, 2, 3]` and `[4, 5, 6, 7]`, candidates `m1 = [1,2,0]` and
`m2 = [0,2,1]` in style "direct": in single precision both `Permute(m1)` and a single
`Permute(m2)` run into undefined behaviour on every rank, so neither sequence yields a shard
or a permutation; in double precision `Permute(m1)` then `Permute(m2)` and a single
`Permute(m2)` both end with the shards `[0, 1, 4, 5]` and `[2, 3, 6, 7]` and the
permutation `[0,2,1]`. -/
theorem C17_path_independence_overrun_single_precision :
    PermuteAll true .ComplexSP twoRanks3 [1, 2, 0] "direct" = [.undefined, .undefined] ∧
    PermuteAll true .ComplexSP twoRanks3 [0, 2, 1] "direct" = [.undefined, .undefined] ∧
    PermuteAll true .ComplexDP twoRanks3 [1, 2, 0] "direct" =
      [.done ⟨3, ⟨[1, 2, 0], [2, 0, 1]⟩, [0, 4, 1, 5]⟩,
        .done ⟨3, ⟨[1, 2, 0], [2, 0, 1]⟩, [2, 6, 3, 7]⟩] ∧
    PermuteAll true .ComplexDP [⟨3, ⟨[1, 2, 0], [2, 0, 1]⟩, [0, 4, 1, 5]⟩,
        ⟨3, ⟨[1, 2, 0], [2, 0, 1]⟩, [2, 6, 3, 7]⟩] [0, 2, 1] "direct" =
      [.done ⟨3, ⟨[0, 2, 1], [0, 2, 1]⟩, [0, 1, 4, 5]⟩,
        .done ⟨3, ⟨[0, 2, 1], [0, 2, 1]⟩, [2, 3, 6, 7]⟩] ∧
    PermuteAll true .ComplexDP twoRanks3 [0, 2, 1] "direct" =
      [.done ⟨3, ⟨[0, 2, 1], [0, 2, 1]⟩, [0, 1, 4, 5]⟩,
        .done ⟨3, ⟨[0, 2, 1], [0, 2, 1]⟩, [2, 3, 6, 7]⟩] := by
  decide

/-- C18: the LocalOnly guard forces a bijection.  With `P = 2^k` partitions (`M = n - k`), a
current inverse map that is a bijection of `[0, n)`, and an "inverse"-style candidate of
length `n` with entries in `[0, n)`: if `PermuteLocal` completes (the three validation loops
pass), the candidate is an array of distinct integers, hence a bijection of `[0, n)`, and the
logical qubits at the positions `[0, M)` are the same set before and after; so a candidate
with a repeated entry makes the call abort with the register unchanged. -/
theorem C18_local_guard_forces_bijection {α : Type} [Zero α] (env : Environment)
    (reg : QubitRegister α) (cand : List Nat) (k : Nat)
    (hk : k ≤ reg.num_qubits) (hP : env.nprocs = 2 ^ k)
    (hold : IsCandidate reg.num_qubits reg.permutation.imap)
    (hlen : cand.length = reg.num_qubits) (hrange : ∀ x ∈ cand, x < reg.num_qubits) :
    ((PermuteLocal env reg cand "inverse").succeeded = true →
      IsCandidate reg.num_qubits cand ∧
      ∀ q, (∃ pos, pos < reg.num_qubits - k ∧ cand.getD pos 0 = q) ↔
        (∃ pos, pos < reg.num_qubits - k ∧ reg.permutation.imap.getD pos 0 = q)) ∧
    (¬ cand.Nodup → PermuteLocal env reg cand "inverse" = .abort reg) := by
  have hrun := PermuteLocal_inverse env reg cand hlen
  rw [localBits_two_pow env reg k hP] at hrun
  have hA : (PermuteLocal env reg cand "inverse").succeeded = true →
      IsCandidate reg.num_qubits cand ∧
      ∀ q, (∃ pos, pos < reg.num_qubits - k ∧ cand.getD pos 0 = q) ↔
        (∃ pos, pos < reg.num_qubits - k ∧ reg.permutation.imap.getD pos 0 = q) := by
    intro hpass
    have hg : localGuard reg.permutation.imap cand (reg.num_qubits - k) reg.num_qubits
        = true := by
      cases hgv : localGuard reg.permutation.imap cand (reg.num_qubits - k) reg.num_qubits
      · rw [hrun, hgv] at hpass
        cases hpass
      · rfl
    have hb := isBij_of_localGuard (Nat.sub_le _ _) hold.isBij hlen hrange hg
    obtain ⟨h1, -⟩ := (localGuard_iff reg.permutation.imap cand (reg.num_qubits - k)
      reg.num_qubits (fun pos hp => by rw [hlen]; exact hold.isBij.2.1 pos (by omega))).mp hg
    have h1' := initial_image_swap hold.isBij hb (Nat.sub_le _ _) h1
    refine ⟨hb.isCandidate, fun q => ⟨?_, ?_⟩⟩
    · rintro ⟨pos, hp, rfl⟩
      exact h1' pos hp
    · rintro ⟨pos, hp, rfl⟩
      exact h1 pos hp
  refine ⟨hA, fun hnd => ?_⟩
  cases hout : PermuteLocal env reg cand "inverse" with
  | done s =>
    exact absurd (hA (by rw [hout]; rfl)).1.2.2 hnd
  | abort s =>
    rw [PermuteLocal_abort env reg s cand "inverse" hout]
  | undefined =>
    exact absurd hout (PermuteLocal_defined env reg cand "inverse")

/-- C18 at `n = 3`, `P = 2` (`M = 2`), identity start: the inverse-style candidate `[1,0,2]`
passes and is a bijection keeping the local qubits `{0, 1}`; the candidate `[0,0,2]`, with a
repeated entry, is rejected. -/
theorem C18_local_guard_forces_bijection_witness :
    IsCandidate reg3.num_qubits reg3.permutation.imap ∧
    (PermuteLocal rank0of2 reg3 [1, 0, 2] "inverse").succeeded = true ∧
    (IsCandidate reg3.num_qubits [1, 0, 2] ∧
      ∀ q, (∃ pos, pos < reg3.num_qubits - 1 ∧ [1, 0, 2].getD pos 0 = q) ↔
        (∃ pos, pos < reg3.num_qubits - 1 ∧ reg3.permutation.imap.getD pos 0 = q)) ∧
    ¬ [0, 0, 2].Nodup ∧
    PermuteLocal rank0of2 reg3 [0, 0, 2] "inverse" = .abort reg3 :=
  ⟨by decide, by decide,
    (C18_local_guard_forces_bijection rank0of2 reg3 [1, 0, 2] 1 (by decide) rfl (by decide)
      rfl (by decide)).1 (by decide),
    by decide,
    (C18_local_guard_forces_bijection rank0of2 reg3 [0, 0, 2] 1 (by decide) rfl (by decide)
      rfl (by decide)).2 (by decide)⟩

/-- C19: for `QubitRegister<ComplexSP>` the multi-node branch does not return what
`PermuteLocal` returns.  At `n = 3`, `P = 2` (`M = 2`), identity start, shards `[0, 1, 2, 3]`
and `[4, 5, 6, 7]`, candidate `[1,0,2]` in style "direct", which passes the guard of
`PermuteLocal`: in single precision `PermuteLocal` completes on both ranks with the shards
`[0, 2, 1, 3]` and `[4, 6, 5, 7]`, while `Permute` runs into the overrun of its all-gather
(which passes `MPI_DOUBLE_COMPLEX`) on both ranks; in double precision `Permute` returns the
outcomes of `PermuteLocal`. -/
theorem C19_local_and_distributed_differ_single_precision :
    twoRanks3.mapIdx (fun r reg =>
        PermuteLocal (rankEnv 2 r true .ComplexSP) reg [1, 0, 2] "direct") =
      [.done ⟨3, ⟨[1, 0, 2], [1, 0, 2]⟩, [0, 2, 1, 3]⟩,
        .done ⟨3, ⟨[1, 0, 2], [1, 0, 2]⟩, [4, 6, 5, 7]⟩] ∧
    PermuteAll true .ComplexSP twoRanks3 [1, 0, 2] "direct" = [.undefined, .undefined] ∧
    PermuteAll true .ComplexDP twoRanks3 [1, 0, 2] "direct" =
      twoRanks3.mapIdx (fun r reg =>
        PermuteLocal (rankEnv 2 r true .ComplexDP) reg [1, 0, 2] "direct") := by
  decide

end QuregPermute
